import Mathlib

/-!
Verification of the timing-alignment and attention-guide core of the
Tacotron data-preparation scripts (`get_durations.py`,
`create_diagonal_guides.py`).

Shallow embedding conventions:
* numpy float arrays of durations are modelled as `List ℚ` (the arithmetic
  performed on them — cumulative sums, subtraction, absolute distances,
  comparison against a grid — is exact on the rationals used in practice);
* the parallel arrays `merlin_label` / `merlin_timings` walked with a single
  index `m` in `match_up` are modelled as one `List (String × ℤ)`;
* a python `assert` failure is a dedicated error constructor, a `return None`
  (the divisibility skip) is another, and an out-of-range index (only
  reachable on an empty input, where the source would raise `IndexError`)
  is a third;
* text files are modelled as lists of lines, each line a `List Char`
  (`readlines` plus the subsequent `strip` calls make the terminator moot).
-/

namespace Taco

/-! ## SequenceAligner: `match_up` (get_durations.py lines 60-87) -/

/-- Result of `match_up`: `mismatch` is the in-loop
`assert phoneme_label[d].startswith('<'), (phoneme_label[d], merlin_label[m])`
failing (it names the two conflicting tokens in the order of the assert
message: target first, source second); `leftover` is the post-loop
`assert m == len(merlin_label)` failing. -/
inductive AlignResult where
  | mismatch (target source : String)
  | leftover
  | ok (timings : List ℤ)
deriving DecidableEq

/-- `merlin_silence_symbols = ['pau', 'sil', 'skip']` (line 62). -/
def merlin_silence_symbols : List String := ["pau", "sil", "skip"]

/-- `p.startswith('<')`: for the one-character pattern used in the source
this is exactly the test that the first character of `p` is `'<'`. -/
def startsWithAngle (p : String) : Bool :=
  match p.data with
  | '<' :: _ => true
  | _ => false

/-- Prepend one emitted timing onto the result of the remaining loop
iterations (errors propagate unchanged, as a raised assertion would). -/
def pushTiming (t : ℤ) : AlignResult → AlignResult
  | .ok ts => .ok (t :: ts)
  | r => r

/-- `match_up` (lines 60-87).  The source walks `merlin_label` /
`merlin_timings` with one cursor `m` and `phoneme_label` with cursor `d`;
here the two parallel source sequences are zipped into one list.
First clause: the `while` loop has ended with the source consumed
(`assert m == len(merlin_label)` holds) and the trailing
`while d < len(phoneme_label)` appends a 0 for every remaining target token.
Second clause: the loop ended with targets consumed but source tokens left,
so `assert m == len(merlin_label)` fails.
Third clause: one iteration of the `while` body. -/
def match_up : List (String × ℤ) → List String → AlignResult
  | [], pl => .ok (List.replicate pl.length 0)
  | _ :: _, [] => .leftover
  | (l, t) :: ms, p :: ps =>
    if l ∈ merlin_silence_symbols then
      if startsWithAngle p then pushTiming t (match_up ms ps)
      else .mismatch p l
    else
      if startsWithAngle p then pushTiming 0 (match_up ((l, t) :: ms) ps)
      else pushTiming t (match_up ms ps)

theorem match_up_nil (pl : List String) :
    match_up [] pl = .ok (List.replicate pl.length 0) := by
  cases pl <;> rfl

theorem match_up_cons (l : String) (t : ℤ) (ms : List (String × ℤ))
    (p : String) (ps : List String) :
    match_up ((l, t) :: ms) (p :: ps) =
      if l ∈ merlin_silence_symbols then
        if startsWithAngle p then pushTiming t (match_up ms ps)
        else .mismatch p l
      else
        if startsWithAngle p then pushTiming 0 (match_up ((l, t) :: ms) ps)
        else pushTiming t (match_up ms ps) := rfl

theorem pushTiming_eq_ok {t : ℤ} {r : AlignResult} {ts : List ℤ}
    (h : pushTiming t r = .ok ts) :
    ∃ ts', r = .ok ts' ∧ ts = t :: ts' := by
  cases r with
  | ok ts' => exact ⟨ts', rfl, by simpa [pushTiming] using h.symm⟩
  | mismatch a b => simp [pushTiming] at h
  | leftover => simp [pushTiming] at h

theorem match_up_ok_length (ms : List (String × ℤ)) (pl : List String)
    (ts : List ℤ) (h : match_up ms pl = .ok ts) : ts.length = pl.length := by
  induction pl generalizing ms ts with
  | nil =>
    cases ms with
    | nil => rw [match_up_nil] at h; cases h; simp
    | cons m ms => simp [match_up] at h
  | cons p ps ih =>
    cases ms with
    | nil => rw [match_up_nil] at h; cases h; simp
    | cons m ms =>
      obtain ⟨l, t⟩ := m
      rw [match_up_cons] at h
      by_cases hsil : l ∈ merlin_silence_symbols
      · simp only [hsil, if_true] at h
        by_cases hb : startsWithAngle p
        · simp only [hb, if_true] at h
          obtain ⟨ts', hrec, hts⟩ := pushTiming_eq_ok h
          subst hts
          simp [ih ms ts' hrec]
        · simp [hb] at h
      · simp only [hsil, if_false] at h
        by_cases hb : startsWithAngle p
        · simp only [hb, if_true] at h
          obtain ⟨ts', hrec, hts⟩ := pushTiming_eq_ok h
          subst hts
          simp [ih ((l, t) :: ms) ts' hrec]
        · simp only [hb, if_false] at h
          obtain ⟨ts', hrec, hts⟩ := pushTiming_eq_ok h
          subst hts
          simp [ih ms ts' hrec]

/-- Claim C3: when the current source token is one of the forced-alignment
silence symbols and the current target token does not start with `<`, the
alignment fails with a data-integrity failure naming both tokens; when the
target token is a boundary marker, the source duration is emitted and both
cursors advance (the loop continues on the two tails). -/
theorem C3_silence_requires_boundary (l : String) (t : ℤ)
    (ms : List (String × ℤ)) (p : String) (ps : List String)
    (hsil : l ∈ merlin_silence_symbols) :
    (¬ startsWithAngle p → match_up ((l, t) :: ms) (p :: ps) = .mismatch p l) ∧
    (startsWithAngle p →
      match_up ((l, t) :: ms) (p :: ps) = pushTiming t (match_up ms ps)) := by
  constructor
  · intro hb
    rw [match_up_cons]
    simp [hsil, hb]
  · intro hb
    rw [match_up_cons]
    simp [hsil, hb]

/-- Witness for C3 at concrete tokens: source `"pau"` against non-boundary
target `"k"` fails naming both; against boundary target `"<s>"` it emits the
duration 7 and recurses on the tails. -/
theorem C3_witness :
    match_up [("pau", 7), ("k", 3)] ["k"] = .mismatch "k" "pau" ∧
    match_up [("pau", 7), ("k", 3)] ["<s>", "k"] =
      pushTiming 7 (match_up [("k", 3)] ["k"]) := by
  constructor
  · exact (C3_silence_requires_boundary "pau" 7 [("k", 3)] "k" []
      (by decide)).1 (by decide)
  · exact (C3_silence_requires_boundary "pau" 7 [("k", 3)] "<s>" ["k"]
      (by decide)).2 (by decide)

/-- Claim C4: whenever `match_up` succeeds, the returned duration list has
exactly the length of the target token list, and once the source sequence is
exhausted every remaining target token receives duration 0. -/
theorem C4_ok_length_and_zero_tail (ms : List (String × ℤ))
    (pl : List String) (ts : List ℤ) (h : match_up ms pl = .ok ts) :
    ts.length = pl.length ∧
    (∀ rest : List String,
      match_up [] rest = .ok (List.replicate rest.length 0)) :=
  ⟨match_up_ok_length ms pl ts h, fun rest => match_up_nil rest⟩

/-- Witness for C4: a successful concrete alignment with trailing
punctuation tokens; the output has the target's length and the two target
tokens left after the source ran out got duration 0. -/
theorem C4_witness :
    match_up [("pau", 2), ("k", 5)] ["<s>", "k", ".", "<e>"] =
      .ok [2, 5, 0, 0] ∧
    ([(2 : ℤ), 5, 0, 0].length = ["<s>", "k", ".", "<e>"].length ∧
      (∀ rest : List String,
        match_up [] rest = .ok (List.replicate rest.length 0))) := by
  have h : match_up [("pau", 2), ("k", 5)] ["<s>", "k", ".", "<e>"] =
      .ok [2, 5, 0, 0] := by decide
  exact ⟨h, C4_ok_length_and_zero_tail _ _ _ h⟩

/-- Claim C10: when the current source token is not a silence symbol and the
current target token is not a boundary marker, `match_up` emits the source
duration and advances both cursors for every such pair of tokens — the two
token identities are never compared, so differing phonemes are silently
paired. -/
theorem C10_no_identity_check (l : String) (t : ℤ)
    (ms : List (String × ℤ)) (p : String) (ps : List String)
    (hsil : l ∉ merlin_silence_symbols) (hb : ¬ startsWithAngle p) :
    match_up ((l, t) :: ms) (p :: ps) = pushTiming t (match_up ms ps) := by
  rw [match_up_cons]
  simp [hsil, hb]

/-- Witness for C10: source phoneme `"k"` is paired with the different
target phoneme `"a"` without any mismatch being reported. -/
theorem C10_witness :
    match_up [("k", 9)] ["a"] = pushTiming 9 (match_up [] []) ∧
    match_up [("k", 9)] ["a"] = .ok [9] := by
  refine ⟨C10_no_identity_check "k" 9 [] "a" [] (by decide) (by decide), ?_⟩
  decide

/-! ## AttentionGuideBuilder (hard): `durations_to_attention_matrix`
(get_durations.py lines 125-145).  The numpy matrix `A` of shape
`(nframes, nphones)` is a list of rows; `A[start:end, i] = 1.0` is
`setBandGo`, and the `for (i,dur) in enumerate(durations)` loop is a fold
over `durations.enum` carrying the matrix and the running `start`. -/

/-- Row `f` of the matrix (out-of-range reads, which the source never
performs, give the empty row). -/
def rowAt (A : List (List ℚ)) (f : ℕ) : List ℚ := A.getD f []

/-- Entry at frame `f`, phone column `i`. -/
def entry (A : List (List ℚ)) (f i : ℕ) : ℚ := (rowAt A f).getD i 0

/-- `A[s:e, i] = 1.0`, walking the rows with absolute row index `r`. -/
def setBandGo (s e i : ℕ) : ℕ → List (List ℚ) → List (List ℚ)
  | _, [] => []
  | r, row :: rows =>
    (if s ≤ r ∧ r < e then row.set i 1 else row) :: setBandGo s e i (r + 1) rows

/-- One iteration of the `for (i,dur) in enumerate(durations)` body:
`end = start + dur; A[start:end,i] = 1.0; start = end`. -/
def d2amStep (acc : List (List ℚ) × ℕ) (idur : ℕ × ℕ) : List (List ℚ) × ℕ :=
  (setBandGo acc.2 (acc.2 + idur.2) idur.1 0 acc.1, acc.2 + idur.2)

/-- `durations_to_attention_matrix` (lines 125-145): start from the
`np.zeros((nframes, nphones))` matrix and run the banding loop. -/
def durations_to_attention_matrix (durations : List ℕ) : List (List ℚ) :=
  (durations.enum.foldl d2amStep
    (List.replicate durations.sum (List.replicate durations.length 0), 0)).1

/-- Sum of the first `n` durations: the `start` of token `n`'s band. -/
def prefSum (ds : List ℕ) (n : ℕ) : ℕ := (ds.take n).sum

theorem prefSum_zero (ds : List ℕ) : prefSum ds 0 = 0 := rfl

theorem prefSum_cons_succ (d : ℕ) (ds : List ℕ) (n : ℕ) :
    prefSum (d :: ds) (n + 1) = d + prefSum ds n := by
  simp [prefSum]

theorem prefSum_succ (ds : List ℕ) (i : ℕ) :
    prefSum ds (i + 1) = prefSum ds i + ds.getD i 0 := by
  induction ds generalizing i with
  | nil => simp [prefSum]
  | cons d ds ih =>
    cases i with
    | zero => simp [prefSum]
    | succ i => simp [prefSum_cons_succ, ih i, Nat.add_assoc]

theorem prefSum_le_sum (ds : List ℕ) (n : ℕ) : prefSum ds n ≤ ds.sum := by
  conv_rhs => rw [← List.take_append_drop n ds]
  rw [List.sum_append]
  exact Nat.le_add_right _ _

theorem prefSum_mono (ds : List ℕ) {m n : ℕ} (h : m ≤ n) :
    prefSum ds m ≤ prefSum ds n := by
  have h1 : prefSum ds m = prefSum (ds.take n) m := by
    simp [prefSum, List.take_take, Nat.min_eq_left h]
  rw [h1]
  calc prefSum (ds.take n) m ≤ (ds.take n).sum := prefSum_le_sum _ _
    _ = prefSum ds n := rfl

theorem getD_set_eq (l : List ℚ) (i j : ℕ) (a d : ℚ) :
    (l.set i a).getD j d = if i = j ∧ i < l.length then a else l.getD j d := by
  induction l generalizing i j with
  | nil => simp
  | cons x l ih =>
    cases i with
    | zero => cases j <;> simp [List.set]
    | succ i =>
      cases j with
      | zero => simp [List.set]
      | succ j => simpa [List.set] using ih i j

theorem length_setBandGo (s e i : ℕ) :
    ∀ (r : ℕ) (A : List (List ℚ)), (setBandGo s e i r A).length = A.length := by
  intro r A
  induction A generalizing r with
  | nil => rfl
  | cons row rows ih => simp [setBandGo, ih]

theorem mem_setBandGo_length (s e i : ℕ) {W : ℕ} :
    ∀ (r : ℕ) (A : List (List ℚ)), (∀ row ∈ A, row.length = W) →
      ∀ row ∈ setBandGo s e i r A, row.length = W := by
  intro r A
  induction A generalizing r with
  | nil => intro _ row hrow; simp [setBandGo] at hrow
  | cons a rows ih =>
    intro hA row hrow
    rw [setBandGo] at hrow
    rcases List.mem_cons.mp hrow with h | h
    · subst h
      split
      · simpa using hA a (by simp)
      · exact hA a (by simp)
    · exact ih (r + 1) (fun x hx => hA x (by simp [hx])) row h

theorem rowAt_setBandGo (s e i : ℕ) :
    ∀ (A : List (List ℚ)) (r f : ℕ),
      rowAt (setBandGo s e i r A) f =
        if f < A.length ∧ s ≤ r + f ∧ r + f < e then (rowAt A f).set i 1
        else rowAt A f := by
  intro A
  induction A with
  | nil => intro r f; simp [setBandGo, rowAt]
  | cons row rows ih =>
    intro r f
    cases f with
    | zero =>
      simp only [setBandGo, rowAt, List.getD_cons_zero, List.length_cons,
        Nat.add_zero]
      split_ifs with h1 h2 h2
      · rfl
      · exact absurd ⟨Nat.succ_pos _, h1⟩ h2
      · exact absurd h2.2 h1
      · rfl
    | succ f =>
      simp only [setBandGo, rowAt, List.getD_cons_succ, List.length_cons]
      have ih' := ih (r + 1) f
      simp only [rowAt] at ih'
      rw [ih']
      split_ifs with h1 h2 h2
      · rfl
      · obtain ⟨ha, hb, hc⟩ := h1
        exact absurd ⟨by omega, by omega, by omega⟩ h2
      · obtain ⟨ha, hb, hc⟩ := h2
        exact absurd ⟨by omega, by omega, by omega⟩ h1
      · rfl

/-- Which (index, duration) pair of the remaining loop iterations, started
at cumulative offset `s`, writes a 1 at frame `f`, column `i`. -/
def inBands : List (ℕ × ℕ) → ℕ → ℕ → ℕ → Prop
  | [], _, _, _ => False
  | (j, dur) :: ps, s, f, i =>
    (i = j ∧ s ≤ f ∧ f < s + dur) ∨ inBands ps (s + dur) f i

instance inBandsDecidable :
    ∀ (pairs : List (ℕ × ℕ)) (s f i : ℕ), Decidable (inBands pairs s f i)
  | [], _, _, _ => isFalse id
  | (j, dur) :: ps, s, f, i =>
    have : Decidable (inBands ps (s + dur) f i) :=
      inBandsDecidable ps (s + dur) f i
    inferInstanceAs
      (Decidable ((i = j ∧ s ≤ f ∧ f < s + dur) ∨ inBands ps (s + dur) f i))

theorem inBands_cons (j dur : ℕ) (ps : List (ℕ × ℕ)) (s f i : ℕ) :
    inBands ((j, dur) :: ps) s f i ↔
      ((i = j ∧ s ≤ f ∧ f < s + dur) ∨ inBands ps (s + dur) f i) := Iff.rfl

theorem entry_foldl (W : ℕ) :
    ∀ (pairs : List (ℕ × ℕ)) (A : List (List ℚ)) (s0 : ℕ),
      (∀ row ∈ A, row.length = W) → ∀ f i,
      entry ((pairs.foldl d2amStep (A, s0)).1) f i =
        if inBands pairs s0 f i ∧ f < A.length ∧ i < W then 1
        else entry A f i := by
  intro pairs
  induction pairs with
  | nil => intro A s0 _ f i; simp [inBands]
  | cons jd ps ih =>
    intro A s0 hW f i
    obtain ⟨j, dur⟩ := jd
    have hstep : (((j, dur) :: ps).foldl d2amStep (A, s0)) =
        ps.foldl d2amStep (setBandGo s0 (s0 + dur) j 0 A, s0 + dur) := rfl
    rw [hstep,
      ih (setBandGo s0 (s0 + dur) j 0 A) (s0 + dur)
        (mem_setBandGo_length _ _ _ _ A hW) f i]
    have hlen : (setBandGo s0 (s0 + dur) j 0 A).length = A.length :=
      length_setBandGo _ _ _ _ A
    have hrowlen : f < A.length → (rowAt A f).length = W := by
      intro h1
      apply hW
      rw [rowAt, List.getD_eq_getElem A [] h1]
      exact List.getElem_mem _
    have haux : entry (setBandGo s0 (s0 + dur) j 0 A) f i =
        if (i = j ∧ s0 ≤ f ∧ f < s0 + dur) ∧ f < A.length ∧ i < W then 1
        else entry A f i := by
      rw [entry, rowAt_setBandGo]
      simp only [Nat.zero_add]
      by_cases h1 : f < A.length ∧ s0 ≤ f ∧ f < s0 + dur
      · rw [if_pos h1, getD_set_eq, hrowlen h1.1]
        by_cases h2 : j = i ∧ j < W
        · rw [if_pos h2, if_pos ⟨⟨h2.1.symm, h1.2⟩, h1.1, h2.1 ▸ h2.2⟩]
        · rw [if_neg h2, if_neg, entry, rowAt]
          rintro ⟨⟨hij, -⟩, -, hiW⟩
          exact h2 ⟨hij.symm, hij ▸ hiW⟩
      · rw [if_neg h1, if_neg, entry, rowAt]
        rintro ⟨⟨-, hs, hd⟩, hf, -⟩
        exact h1 ⟨hf, hs, hd⟩
    rw [hlen, haux]
    simp only [inBands_cons]
    split_ifs <;> first | rfl | (exfalso; tauto)

theorem inBands_enumFrom (f i : ℕ) :
    ∀ (ds : List ℕ) (k s : ℕ),
      inBands (List.enumFrom k ds) s f i ↔
        (k ≤ i ∧ i - k < ds.length ∧ s + prefSum ds (i - k) ≤ f ∧
          f < s + prefSum ds (i - k) + ds.getD (i - k) 0) := by
  intro ds
  induction ds with
  | nil => intro k s; simp [inBands]
  | cons d ds ih =>
    intro k s
    rw [show List.enumFrom k (d :: ds) = (k, d) :: List.enumFrom (k + 1) ds
      from rfl]
    rw [show inBands ((k, d) :: List.enumFrom (k + 1) ds) s f i =
      ((i = k ∧ s ≤ f ∧ f < s + d) ∨
        inBands (List.enumFrom (k + 1) ds) (s + d) f i) from rfl]
    rw [ih (k + 1) (s + d)]
    by_cases hik : i = k
    · constructor
      · rintro (⟨-, h1, h2⟩ | ⟨h1, -⟩)
        · refine ⟨by omega, by simp [hik], ?_, ?_⟩
          · simpa [hik, Nat.sub_self, prefSum_zero] using h1
          · simpa [hik, Nat.sub_self, prefSum_zero, List.getD_cons_zero]
              using h2
        · omega
      · rintro ⟨-, -, h1, h2⟩
        left
        refine ⟨hik, ?_, ?_⟩
        · simpa [hik, Nat.sub_self, prefSum_zero] using h1
        · simpa [hik, Nat.sub_self, prefSum_zero, List.getD_cons_zero]
            using h2
    · by_cases hki : k < i
      · have hsub : i - k = (i - (k + 1)) + 1 := by omega
        rw [hsub, prefSum_cons_succ]
        simp only [List.getD_cons_succ, List.length_cons]
        constructor
        · rintro (⟨h, _⟩ | h)
          · exact absurd h hik
          · refine ⟨by omega, by omega, by omega, by omega⟩
        · rintro ⟨_, h2, h3, h4⟩
          right
          refine ⟨by omega, by omega, by omega, by omega⟩
      · constructor
        · rintro (⟨h, _⟩ | h)
          · exact absurd h hik
          · exact absurd h.1 (by omega)
        · rintro ⟨h, _⟩
          exact absurd h (by omega)

/-- The band condition for frame `f` in column `i`. -/
def inBand (ds : List ℕ) (f i : ℕ) : Prop :=
  prefSum ds i ≤ f ∧ f < prefSum ds i + ds.getD i 0

instance (ds : List ℕ) (f i : ℕ) : Decidable (inBand ds f i) := by
  unfold inBand; infer_instance

theorem inBand_lt_length {ds : List ℕ} {f i : ℕ} (h : inBand ds f i) :
    i < ds.length := by
  by_contra hc
  rw [inBand, List.getD_eq_default _ _ (Nat.le_of_not_lt hc)] at h
  omega

theorem inBand_lt_sum {ds : List ℕ} {f i : ℕ} (h : inBand ds f i) :
    f < ds.sum := by
  have hi := inBand_lt_length h
  have h1 : prefSum ds i + ds.getD i 0 = prefSum ds (i + 1) :=
    (prefSum_succ ds i).symm
  have h2 : prefSum ds (i + 1) ≤ ds.sum := prefSum_le_sum ds (i + 1)
  have := h.2
  omega

/-- Pointwise characterisation of the hard attention matrix: the entry at
frame `f`, column `i` is 1 inside token `i`'s contiguous band and 0
everywhere else. -/
theorem entry_d2am (ds : List ℕ) (f i : ℕ) :
    entry (durations_to_attention_matrix ds) f i =
      if inBand ds f i then 1 else 0 := by
  have hrep : ∀ (n k : ℕ), (List.replicate n (0:ℚ)).getD k 0 = 0 := by
    intro n k
    by_cases h : k < n
    · rw [List.getD_eq_getElem _ _ (by simpa using h)]
      simp
    · rw [List.getD_eq_default _ _ (by simpa using Nat.le_of_not_lt h)]
  have hA0 : entry (List.replicate ds.sum (List.replicate ds.length (0:ℚ)))
      f i = 0 := by
    simp only [entry, rowAt]
    by_cases hf : f < ds.sum
    · rw [List.getD_eq_getElem
        (List.replicate ds.sum (List.replicate ds.length (0:ℚ))) []
        (by simpa using hf)]
      simp [hrep]
    · rw [List.getD_eq_default
        (List.replicate ds.sum (List.replicate ds.length (0:ℚ))) []
        (by simpa using Nat.le_of_not_lt hf)]
      simp
  rw [durations_to_attention_matrix,
    entry_foldl ds.length ds.enum _ 0
      (fun row hrow => by simp [List.eq_of_mem_replicate hrow]) f i,
    hA0]
  have henum : ds.enum = List.enumFrom 0 ds := rfl
  rw [henum]
  have hiff := inBands_enumFrom f i ds 0 0
  simp only [Nat.zero_add, Nat.sub_zero, Nat.zero_le, true_and] at hiff
  simp only [List.length_replicate]
  by_cases hband : inBand ds f i
  · have hi := inBand_lt_length hband
    have hf := inBand_lt_sum hband
    rw [if_pos ⟨hiff.mpr ⟨hi, hband.1, hband.2⟩, hf, hi⟩, if_pos hband]
  · rw [if_neg hband, if_neg]
    rintro ⟨hin, -, -⟩
    have h := hiff.mp hin
    exact hband ⟨h.2.1, h.2.2⟩

theorem d2am_shape (ds : List ℕ) :
    (durations_to_attention_matrix ds).length = ds.sum ∧
    ∀ row ∈ durations_to_attention_matrix ds, row.length = ds.length := by
  have key : ∀ (pairs : List (ℕ × ℕ)) (A : List (List ℚ)) (s0 : ℕ),
      (∀ row ∈ A, row.length = ds.length) →
      ((pairs.foldl d2amStep (A, s0)).1.length = A.length ∧
        ∀ row ∈ (pairs.foldl d2amStep (A, s0)).1, row.length = ds.length) := by
    intro pairs
    induction pairs with
    | nil => intro A s0 hA; exact ⟨rfl, hA⟩
    | cons jd ps ih =>
      intro A s0 hA
      obtain ⟨j, dur⟩ := jd
      have hstep : (((j, dur) :: ps).foldl d2amStep (A, s0)) =
          ps.foldl d2amStep (setBandGo s0 (s0 + dur) j 0 A, s0 + dur) := rfl
      rw [hstep]
      obtain ⟨h1, h2⟩ := ih (setBandGo s0 (s0 + dur) j 0 A) (s0 + dur)
        (mem_setBandGo_length _ _ _ _ A hA)
      exact ⟨by rw [h1, length_setBandGo], h2⟩
  have h := key ds.enum
    (List.replicate ds.sum (List.replicate ds.length 0)) 0
    (fun row hrow => by simp [List.eq_of_mem_replicate hrow])
  rw [durations_to_attention_matrix]
  exact ⟨by rw [h.1, List.length_replicate], h.2⟩

theorem list_sum_getD (l : List ℚ) :
    l.sum = ∑ j ∈ Finset.range l.length, l.getD j 0 := by
  induction l with
  | nil => simp
  | cons a l ih =>
    rw [List.sum_cons, List.length_cons, Finset.sum_range_succ', ih]
    simp [List.getD_cons_succ, List.getD_cons_zero, add_comm]

theorem exists_inBand (ds : List ℕ) (f : ℕ) (hf : f < ds.sum) :
    ∃ i, inBand ds f i := by
  induction ds generalizing f with
  | nil => simp at hf
  | cons d ds ih =>
    by_cases hfd : f < d
    · exact ⟨0, by simp [inBand, prefSum_zero], by
        simpa [inBand, prefSum_zero] using hfd⟩
    · have hf' : f - d < ds.sum := by
        rw [List.sum_cons] at hf
        omega
      obtain ⟨i, hi⟩ := ih (f - d) hf'
      refine ⟨i + 1, ?_, ?_⟩
      · rw [prefSum_cons_succ]
        have := hi.1
        omega
      · rw [prefSum_cons_succ, List.getD_cons_succ]
        have := hi.2
        omega

theorem inBand_unique {ds : List ℕ} {f i i' : ℕ}
    (h : inBand ds f i) (h' : inBand ds f i') : i = i' := by
  by_contra hne
  rcases Nat.lt_or_ge i i' with hlt | hge
  · have h1 : prefSum ds (i + 1) ≤ prefSum ds i' := prefSum_mono ds hlt
    rw [prefSum_succ] at h1
    have := h.2
    have := h'.1
    omega
  · have hlt : i' < i := Nat.lt_of_le_of_ne hge (fun he => hne he.symm)
    have h1 : prefSum ds (i' + 1) ≤ prefSum ds i := prefSum_mono ds hlt
    rw [prefSum_succ] at h1
    have := h'.2
    have := h.1
    omega

theorem d2am_row_sum (ds : List ℕ) (f : ℕ) (hf : f < ds.sum) :
    (rowAt (durations_to_attention_matrix ds) f).sum = 1 := by
  obtain ⟨hlen, hrows⟩ := d2am_shape ds
  have hflen : f < (durations_to_attention_matrix ds).length := by
    rw [hlen]; exact hf
  have hrowmem : rowAt (durations_to_attention_matrix ds) f ∈
      durations_to_attention_matrix ds := by
    rw [rowAt, List.getD_eq_getElem _ _ hflen]
    exact List.getElem_mem _
  have hrowlen : (rowAt (durations_to_attention_matrix ds) f).length =
      ds.length := hrows _ hrowmem
  rw [list_sum_getD, hrowlen]
  obtain ⟨i0, hi0⟩ := exists_inBand ds f hf
  have hsummand : ∀ j, (rowAt (durations_to_attention_matrix ds) f).getD j 0 =
      if j = i0 then 1 else 0 := by
    intro j
    have := entry_d2am ds f j
    rw [entry] at this
    rw [this]
    by_cases hj : inBand ds f j
    · rw [if_pos hj, if_pos (inBand_unique hj hi0)]
    · rw [if_neg hj, if_neg]
      rintro rfl
      exact hj hi0
  rw [Finset.sum_congr rfl (fun j _ => hsummand j), Finset.sum_ite_eq']
  rw [if_pos (Finset.mem_range.mpr (inBand_lt_length hi0))]

theorem d2am_column (ds : List ℕ) (i : ℕ) :
    (∀ f, entry (durations_to_attention_matrix ds) f i ≠ 0 ↔
      (prefSum ds i ≤ f ∧ f < prefSum ds i + ds.getD i 0)) ∧
    ((Finset.range ds.sum).filter
      (fun f => entry (durations_to_attention_matrix ds) f i ≠ 0)).card =
      ds.getD i 0 := by
  have hiff : ∀ f, entry (durations_to_attention_matrix ds) f i ≠ 0 ↔
      inBand ds f i := by
    intro f
    rw [entry_d2am]
    by_cases hb : inBand ds f i
    · simp [hb]
    · simp [hb]
  constructor
  · intro f
    rw [hiff f]
    exact Iff.rfl
  · have hset : (Finset.range ds.sum).filter
        (fun f => entry (durations_to_attention_matrix ds) f i ≠ 0) =
        Finset.Ico (prefSum ds i) (prefSum ds i + ds.getD i 0) := by
      ext a
      rw [Finset.mem_filter, Finset.mem_range, Finset.mem_Ico, hiff a]
      constructor
      · rintro ⟨-, hb⟩
        exact hb
      · intro hb
        exact ⟨inBand_lt_sum hb, hb⟩
    rw [hset, Nat.card_Ico, Nat.add_sub_cancel_left]

/-- Claim C6: for every list of (non-negative) durations, the hard attention
guide has `sum durations` rows and `length durations` columns, every row in
range sums to exactly 1, and column `i` is nonzero exactly on the contiguous
frame range `[prefSum ds i, prefSum ds i + ds[i])`, so its nonzero count is
`ds[i]`. -/
theorem C6_hard_guide_invariants (ds : List ℕ) :
    (durations_to_attention_matrix ds).length = ds.sum ∧
    (∀ row ∈ durations_to_attention_matrix ds, row.length = ds.length) ∧
    (∀ f, f < ds.sum → (rowAt (durations_to_attention_matrix ds) f).sum = 1) ∧
    (∀ i f, entry (durations_to_attention_matrix ds) f i ≠ 0 ↔
      (prefSum ds i ≤ f ∧ f < prefSum ds i + ds.getD i 0)) ∧
    (∀ i, ((Finset.range ds.sum).filter
      (fun f => entry (durations_to_attention_matrix ds) f i ≠ 0)).card =
      ds.getD i 0) :=
  ⟨(d2am_shape ds).1, (d2am_shape ds).2,
    fun f hf => d2am_row_sum ds f hf,
    fun i => (d2am_column ds i).1,
    fun i => (d2am_column ds i).2⟩

/-- Witness for C6 at the concrete durations `[3,0,1,2]`: row 3 sums to 1
and column 2 has exactly 1 nonzero entry. -/
theorem C6_witness :
    (rowAt (durations_to_attention_matrix [3, 0, 1, 2]) 3).sum = 1 ∧
    ((Finset.range ([3, 0, 1, 2] : List ℕ).sum).filter
      (fun f => entry (durations_to_attention_matrix [3, 0, 1, 2]) f 2 ≠ 0)).card =
      ([3, 0, 1, 2] : List ℕ).getD 2 0 := by
  have h := C6_hard_guide_invariants [3, 0, 1, 2]
  exact ⟨h.2.2.1 3 (by decide), h.2.2.2.2 2⟩

/-- Claim C5 as stated is false: in `durations_to_attention_matrix [3,0,1,2]`
row 3 is not all zero (it has a 1 in column 2, because the zero-duration
token 1 produces an all-zero *column*, not an all-zero row), and row 4's 1
is in column 3, not column 2. -/
theorem C5_counterexample :
    entry (durations_to_attention_matrix [3, 0, 1, 2]) 3 2 = 1 ∧
    entry (durations_to_attention_matrix [3, 0, 1, 2]) 4 2 = 0 ∧
    entry (durations_to_attention_matrix [3, 0, 1, 2]) 4 3 = 1 := by
  decide

/-- Claim C5 amended: `durations_to_attention_matrix [3,0,1,2]` is the 6×4
matrix whose rows 0-2 have a 1 in column 0, rows 3 has a 1 in column 2,
rows 4-5 have a 1 in column 3 (column 1, the zero-duration token, is all
zero), and every row sums to 1. -/
theorem C5_amended_example :
    durations_to_attention_matrix [3, 0, 1, 2] =
      [[1, 0, 0, 0], [1, 0, 0, 0], [1, 0, 0, 0],
       [0, 0, 1, 0], [0, 0, 0, 1], [0, 0, 0, 1]] ∧
    ∀ row ∈ durations_to_attention_matrix [3, 0, 1, 2], row.sum = 1 := by
  have h1 : durations_to_attention_matrix [3, 0, 1, 2] =
      [[1, 0, 0, 0], [1, 0, 0, 0], [1, 0, 0, 0],
       [0, 0, 1, 0], [0, 0, 0, 1], [0, 0, 0, 1]] := by decide
  refine ⟨h1, ?_⟩
  rw [h1]
  intro row hrow
  simp only [List.mem_cons, List.not_mem_nil, or_false] at hrow
  rcases hrow with rfl | rfl | rfl | rfl | rfl | rfl <;> norm_num

/-! ## RateConverter: `resample_timings` (get_durations.py lines 27-58).
The numpy float arithmetic (cumsum, arange, cdist/argmin, subtraction,
`%`) is modelled exactly on ℚ. -/

/-- Result of `resample_timings`: `skip` is the `return None` taken when
some length is not divisible by `from_rate`; `assertFail` is one of the two
`assert`s in the `total_duration` branch failing; `crash` is the
`IndexError` that `ends[-1]` raises on an empty input. -/
inductive RTResult where
  | skip
  | assertFail
  | crash
  | ok (out : List ℚ)
deriving DecidableEq

/-- Python float modulo: `x % r = x - floor(x / r) * r` (exact on ℚ for the
positive rates used here). -/
def ratMod (x r : ℚ) : ℚ := x - ⌊x / r⌋ * r

/-- `np.cumsum` with running accumulator. -/
def cumsumFrom (acc : ℚ) : List ℚ → List ℚ
  | [] => []
  | x :: xs => (acc + x) :: cumsumFrom (acc + x) xs

/-- `np.cumsum(lengths)`. -/
def cumsum (l : List ℚ) : List ℚ := cumsumFrom 0 l

/-- Number of elements of `np.arange(0, stop, step)` (exact arithmetic,
positive step): `ceil(stop / step)`. -/
def gridCount (stop step : ℚ) : ℕ := (⌈stop / step⌉).toNat

/-- `np.arange(0, stop, step)`: the multiples `k * step` below `stop`. -/
def arangeGrid (stop step : ℚ) : List ℚ :=
  (List.range (gridCount stop step)).map (fun k : ℕ => (k : ℚ) * step)

/-- One comparison of the running argmin scan: keep the earlier candidate
unless the new one is strictly closer to `e` (numpy's `argmin` returns the
first index attaining the minimum). -/
def nearStep (e b x : ℚ) : ℚ := if |e - x| < |e - b| then x else b

/-- `new_valid_positions[cdist(...).argmin(axis=1)]` for one end-point `e`:
the first grid value at minimal distance `|e - g|`.  (The empty-grid case is
unreachable under the preconditions proved below.) -/
def nearest (e : ℚ) : List ℚ → ℚ
  | [] => 0
  | g :: gs => gs.foldl (nearStep e) g

/-- `in_new_rate[1:] -= in_new_rate[:-1].copy()`: first differences, the
first element kept as is. -/
def firstDiff (l : List ℚ) : List ℚ := l.zipWith (· - ·) (0 :: l)

/-- The `if total_duration:` tail of `resample_timings` (lines 52-58).
A `total_duration` of `None` or `0.0` is falsy in python, so the branch is
skipped; otherwise the two asserts run and the shortfall is added to the
last element. -/
def applyTotal (out : List ℚ) (to_rate : ℚ) : Option ℚ → RTResult
  | none => .ok out
  | some t =>
    if t = 0 then .ok out
    else if ¬ (out.sum ≤ t) then .assertFail
    else if ¬ (ratMod (t - out.sum) to_rate = 0) then .assertFail
    else .ok (out.dropLast ++ [out.getLastD 0 + (t - out.sum)])

/-- Lines 41-58 of `resample_timings`, after the divisibility gate, applied
to the already-computed `ends = np.cumsum(lengths)`:
`new_valid_positions = np.arange(0, ends[-1] + from_rate*3, to_rate)`,
`in_new_rate = new_valid_positions[cdist(ends, grid).argmin(axis=1)]`,
first-differencing, and the `total_duration` tail. -/
def resampleEnds (ends : List ℚ) (from_rate to_rate : ℚ)
    (td : Option ℚ) : RTResult :=
  match ends with
  | [] => .crash
  | e :: es =>
    applyTotal
      (firstDiff ((e :: es).map (fun x =>
        nearest x (arangeGrid ((e :: es).getLastD 0 + from_rate * 3) to_rate))))
      to_rate td

/-- `resample_timings` (lines 27-58): the divisibility gate
(`remainder = lengths % from_rate; if not all(x == 0 ...): return None`)
followed by the grid-snapping core. -/
def resample_timings (lengths : List ℚ) (from_rate to_rate : ℚ)
    (td : Option ℚ) : RTResult :=
  if ¬ (∀ x ∈ lengths, ratMod x from_rate = 0) then .skip
  else resampleEnds (cumsum lengths) from_rate to_rate td

/-! ### Basic lemmas about the pieces -/

theorem ratMod_eq_zero_iff (x r : ℚ) (hr : r ≠ 0) :
    ratMod x r = 0 ↔ ∃ k : ℤ, x = k * r := by
  constructor
  · intro h
    exact ⟨⌊x / r⌋, by rw [ratMod] at h; linarith⟩
  · rintro ⟨k, rfl⟩
    rw [ratMod, mul_div_assoc, div_self hr, mul_one, Int.floor_intCast,
      sub_self]

theorem cumsum_length (l : List ℚ) : (cumsum l).length = l.length := by
  rw [cumsum]
  generalize (0 : ℚ) = acc
  induction l generalizing acc with
  | nil => rfl
  | cons x xs ih => simp [cumsumFrom, ih]

theorem cumsum_ne_nil {l : List ℚ} (h : l ≠ []) : cumsum l ≠ [] := by
  cases l with
  | nil => exact absurd rfl h
  | cons x xs => simp [cumsum, cumsumFrom]

theorem mem_cumsumFrom_ge (acc : ℚ) (l : List ℚ) (hl : ∀ x ∈ l, 0 ≤ x) :
    ∀ e ∈ cumsumFrom acc l, acc ≤ e := by
  induction l generalizing acc with
  | nil => intro e he; simp [cumsumFrom] at he
  | cons x xs ih =>
    intro e he
    rw [cumsumFrom] at he
    rcases List.mem_cons.mp he with rfl | he
    · have := hl x (by simp)
      linarith
    · have h1 := ih (acc + x) (fun y hy => hl y (by simp [hy])) e he
      have := hl x (by simp)
      linarith

theorem mem_cumsum_nonneg {l : List ℚ} (hl : ∀ x ∈ l, 0 ≤ x) :
    ∀ e ∈ cumsum l, 0 ≤ e :=
  mem_cumsumFrom_ge 0 l hl

theorem getLastD_mem {α : Type} (l : List α) (d : α) (h : l ≠ []) :
    l.getLastD d ∈ l := by
  induction l generalizing d with
  | nil => exact absurd rfl h
  | cons a l ih =>
    rw [List.getLastD_cons]
    cases l with
    | nil => simp [List.getLastD]
    | cons b l => exact List.mem_cons_of_mem a (ih b (by simp))

theorem mem_arangeGrid (stop step : ℚ) (hstep : 0 < step) (g : ℚ) :
    g ∈ arangeGrid stop step ↔ ∃ k : ℕ, g = k * step ∧ g < stop := by
  simp only [arangeGrid, List.mem_map, List.mem_range]
  constructor
  · rintro ⟨k, hk, rfl⟩
    refine ⟨k, rfl, ?_⟩
    rw [gridCount, Int.lt_toNat, Int.lt_ceil] at hk
    rw [← lt_div_iff₀ hstep]
    exact_mod_cast hk
  · rintro ⟨k, rfl, hlt⟩
    refine ⟨k, ?_, rfl⟩
    rw [gridCount, Int.lt_toNat, Int.lt_ceil]
    rw [← lt_div_iff₀ hstep] at hlt
    exact_mod_cast hlt

theorem arangeGrid_sorted (stop step : ℚ) (hstep : 0 < step) :
    (arangeGrid stop step).Pairwise (· < ·) := by
  rw [arangeGrid]
  refine List.Pairwise.map _ ?_ (List.pairwise_lt_range _)
  intro a b hab
  have h : (a : ℚ) < b := by exact_mod_cast hab
  exact mul_lt_mul_of_pos_right h hstep

theorem arangeGrid_ne_nil (stop step : ℚ) (hstop : 0 < stop)
    (hstep : 0 < step) : arangeGrid stop step ≠ [] := by
  rw [arangeGrid]
  have : 0 < gridCount stop step := by
    rw [gridCount]
    have : 0 < ⌈stop / step⌉ := Int.ceil_pos.mpr (div_pos hstop hstep)
    omega
  intro h
  have := congrArg List.length h
  simp at this
  omega

theorem foldNearest_spec (e : ℚ) :
    ∀ (xs : List ℚ) (b : ℚ),
      xs.foldl (nearStep e) b ∈ b :: xs ∧
      (∀ x ∈ b :: xs, |e - xs.foldl (nearStep e) b| ≤ |e - x|) ∧
      ((b :: xs).Pairwise (· < ·) →
        ∀ x ∈ b :: xs, |e - x| = |e - xs.foldl (nearStep e) b| →
          xs.foldl (nearStep e) b ≤ x) := by
  intro xs
  induction xs with
  | nil =>
    intro b
    refine ⟨by simp, ?_, ?_⟩
    · intro x hx
      rw [List.mem_singleton] at hx
      subst hx
      exact le_refl _
    · intro _ x hx hx'
      rw [List.mem_singleton] at hx
      subst hx
      exact le_refl _
  | cons y ys ih =>
    intro b
    have hfold : (y :: ys).foldl (nearStep e) b = ys.foldl (nearStep e)
      (nearStep e b y) := rfl
    obtain ⟨ih1, ih2, ih3⟩ := ih (nearStep e b y)
    have hb'mem : nearStep e b y = b ∨ nearStep e b y = y := by
      rw [nearStep]
      split_ifs
      · exact Or.inr rfl
      · exact Or.inl rfl
    have hb'le : |e - ys.foldl (nearStep e) (nearStep e b y)| ≤
        |e - nearStep e b y| := ih2 _ (by simp)
    have hmin : |e - nearStep e b y| ≤ |e - b| ∧
        |e - nearStep e b y| ≤ |e - y| := by
      rw [nearStep]
      split_ifs with h
      · exact ⟨le_of_lt h, le_refl _⟩
      · exact ⟨le_refl _, le_of_not_lt h⟩
    refine ⟨?_, ?_, ?_⟩
    · rw [hfold]
      rcases List.mem_cons.mp ih1 with h | h
      · rcases hb'mem with h' | h'
        · rw [h, h']
          exact List.mem_cons_self _ _
        · rw [h, h']
          exact List.mem_cons_of_mem _ (List.mem_cons_self _ _)
      · exact List.mem_cons_of_mem _ (List.mem_cons_of_mem _ h)
    · intro x hx
      rw [hfold]
      rcases List.mem_cons.mp hx with rfl | hx
      · exact le_trans hb'le hmin.1
      · rcases List.mem_cons.mp hx with rfl | hx
        · exact le_trans hb'le hmin.2
        · exact ih2 x (by simp [hx])
    · intro hp x hx htie
      rw [hfold] at htie ⊢
      have hpairs : (nearStep e b y :: ys).Pairwise (· < ·) := by
        rcases hb'mem with h' | h' <;> rw [h']
        · rw [List.pairwise_cons] at hp
          rw [List.pairwise_cons]
          exact ⟨fun a ha => hp.1 a (List.mem_cons_of_mem y ha),
            (List.pairwise_cons.mp hp.2).2⟩
        · exact (List.pairwise_cons.mp hp).2
      have hby : b < y := (List.pairwise_cons.mp hp).1 y (by simp)
      rcases List.mem_cons.mp hx with hxb | hx'
      · rw [hxb] at htie ⊢
        rcases hb'mem with h' | h'
        · exact ih3 hpairs b (by rw [h']; exact List.mem_cons_self _ _) htie
        · exfalso
          have h1 : |e - y| < |e - b| := by
            by_contra hc
            rw [nearStep, if_neg hc] at h'
            rw [h'] at hby
            exact lt_irrefl _ hby
          have h2 : |e - ys.foldl (nearStep e) (nearStep e b y)| ≤ |e - y| :=
            hb'le.trans (le_of_eq (by rw [h']))
          linarith
      · rcases List.mem_cons.mp hx' with hxy | hx''
        · rw [hxy] at htie ⊢
          rcases hb'mem with h' | h'
          · have hle : |e - b| ≤ |e - y| := by
              by_contra hc
              rw [nearStep, if_pos (lt_of_not_le hc)] at h'
              rw [← h'] at hby
              exact lt_irrefl _ hby
            have hb2 : |e - ys.foldl (nearStep e) (nearStep e b y)| ≤
                |e - b| := hb'le.trans (le_of_eq (by rw [h']))
            have htieb : |e - b| =
                |e - ys.foldl (nearStep e) (nearStep e b y)| :=
              le_antisymm (hle.trans (le_of_eq htie)) hb2
            have hrb : ys.foldl (nearStep e) (nearStep e b y) ≤ b :=
              ih3 hpairs b (by rw [h']; exact List.mem_cons_self _ _) htieb
            exact le_of_lt (lt_of_le_of_lt hrb hby)
          · exact ih3 hpairs y (by rw [h']; exact List.mem_cons_self _ _) htie
        · exact ih3 hpairs x (List.mem_cons_of_mem _ hx'') htie

theorem nearest_spec (e : ℚ) (l : List ℚ) (hl : l ≠ []) :
    nearest e l ∈ l ∧
    (∀ g ∈ l, |e - nearest e l| ≤ |e - g|) ∧
    (l.Pairwise (· < ·) →
      ∀ g ∈ l, |e - g| = |e - nearest e l| → nearest e l ≤ g) := by
  cases l with
  | nil => exact absurd rfl hl
  | cons g gs =>
    obtain ⟨h1, h2, h3⟩ := foldNearest_spec e gs g
    exact ⟨h1, h2, h3⟩

theorem firstDiff_length (l : List ℚ) : (firstDiff l).length = l.length := by
  simp only [firstDiff, List.length_zipWith, List.length_cons]
  omega

theorem zipWith_sub_cons (a x : ℚ) (xs : List ℚ) :
    List.zipWith (· - ·) (x :: xs) (a :: x :: xs) =
      (x - a) :: List.zipWith (· - ·) xs (x :: xs) := rfl

theorem sum_zipWith_sub (l : List ℚ) :
    ∀ a : ℚ, (List.zipWith (· - ·) l (a :: l)).sum = l.getLastD a - a := by
  induction l with
  | nil => intro a; simp
  | cons x xs ih =>
    intro a
    rw [zipWith_sub_cons, List.sum_cons, ih x, List.getLastD_cons]
    ring

theorem firstDiff_sum (l : List ℚ) : (firstDiff l).sum = l.getLastD 0 := by
  rw [firstDiff, sum_zipWith_sub, sub_zero]

theorem firstDiff_getD (l : List ℚ) (i : ℕ) (hi : i < l.length) :
    (firstDiff l).getD i 0 =
      l.getD i 0 - (if i = 0 then 0 else l.getD (i - 1) 0) := by
  have hlen : i < (firstDiff l).length := by rw [firstDiff_length]; exact hi
  rw [List.getD_eq_getElem _ _ hlen, List.getD_eq_getElem l _ hi]
  simp only [firstDiff, List.getElem_zipWith]
  cases i with
  | zero => simp
  | succ j =>
    simp only [List.getElem_cons_succ, if_neg (Nat.succ_ne_zero j),
      Nat.succ_sub_one]
    rw [List.getD_eq_getElem l _ (by omega)]

theorem zipWith_sub_dvd (r : ℚ) :
    ∀ (l : List ℚ) (a : ℚ), (∃ k : ℤ, a = k * r) →
      (∀ x ∈ l, ∃ k : ℤ, x = k * r) →
      ∀ v ∈ List.zipWith (· - ·) l (a :: l), ∃ k : ℤ, v = k * r := by
  intro l
  induction l with
  | nil => intro a _ _ v hv; simp at hv
  | cons x xs ih =>
    intro a ha hl v hv
    rw [zipWith_sub_cons] at hv
    rcases List.mem_cons.mp hv with rfl | hv
    · obtain ⟨k1, hk1⟩ := hl x (by simp)
      obtain ⟨k2, hk2⟩ := ha
      refine ⟨k1 - k2, ?_⟩
      rw [hk1, hk2]
      push_cast
      ring
    · exact ih x (hl x (by simp)) (fun y hy => hl y (by simp [hy])) v hv

theorem firstDiff_dvd (r : ℚ) (l : List ℚ)
    (hl : ∀ x ∈ l, ∃ k : ℤ, x = k * r) :
    ∀ v ∈ firstDiff l, ∃ k : ℤ, v = k * r :=
  zipWith_sub_dvd r l 0 ⟨0, by simp⟩ hl

theorem sum_dropLast_add_getLastD :
    ∀ l : List ℚ, l ≠ [] → l.dropLast.sum + l.getLastD 0 = l.sum := by
  intro l
  induction l with
  | nil => intro h; exact absurd rfl h
  | cons x xs ih =>
    intro _
    cases xs with
    | nil => simp
    | cons y ys =>
      rw [show (x :: y :: ys).dropLast = x :: (y :: ys).dropLast from rfl,
        List.sum_cons, List.sum_cons]
      have hlast : (x :: y :: ys).getLastD 0 = (y :: ys).getLastD 0 := by
        simp [List.getLastD_cons]
      rw [hlast]
      have h2 := ih (by simp)
      linarith

/-! ### The grid, mapped end-points and output of `resample_timings`
as named views (used in stating the claims). -/

/-- `new_valid_positions` (line 43). -/
def rtGrid (lengths : List ℚ) (fr tr : ℚ) : List ℚ :=
  arangeGrid ((cumsum lengths).getLastD 0 + fr * 3) tr

/-- `in_new_rate` before first-differencing (line 45). -/
def rtMapped (lengths : List ℚ) (fr tr : ℚ) : List ℚ :=
  (cumsum lengths).map (fun x => nearest x (rtGrid lengths fr tr))

/-- `in_new_rate` after first-differencing (line 50). -/
def rtOut (lengths : List ℚ) (fr tr : ℚ) : List ℚ :=
  firstDiff (rtMapped lengths fr tr)

theorem resample_eq_applyTotal (lengths : List ℚ) (fr tr : ℚ)
    (hne : lengths ≠ []) (hdiv : ∀ x ∈ lengths, ratMod x fr = 0)
    (td : Option ℚ) :
    resample_timings lengths fr tr td =
      applyTotal (rtOut lengths fr tr) tr td := by
  rw [resample_timings, if_neg (not_not_intro hdiv)]
  rw [rtOut, rtMapped, rtGrid]
  cases hc : cumsum lengths with
  | nil => exact absurd hc (cumsum_ne_nil hne)
  | cons e es => rfl

theorem rtGrid_stop_pos (lengths : List ℚ) (fr _tr : ℚ)
    (hne : lengths ≠ []) (hnn : ∀ x ∈ lengths, 0 ≤ x) (hfr : 0 < fr) :
    0 < (cumsum lengths).getLastD 0 + fr * 3 := by
  have hmem : (cumsum lengths).getLastD 0 ∈ cumsum lengths :=
    getLastD_mem _ _ (cumsum_ne_nil hne)
  have h0 : 0 ≤ (cumsum lengths).getLastD 0 :=
    mem_cumsum_nonneg hnn _ hmem
  linarith

theorem rtGrid_ne_nil (lengths : List ℚ) (fr tr : ℚ)
    (hne : lengths ≠ []) (hnn : ∀ x ∈ lengths, 0 ≤ x)
    (hfr : 0 < fr) (hto : 0 < tr) : rtGrid lengths fr tr ≠ [] :=
  arangeGrid_ne_nil _ _ (rtGrid_stop_pos lengths fr tr hne hnn hfr) hto

theorem rtGrid_nonneg (lengths : List ℚ) (fr tr : ℚ) (hto : 0 < tr) :
    ∀ g ∈ rtGrid lengths fr tr, 0 ≤ g := by
  intro g hg
  obtain ⟨k, rfl, -⟩ := (mem_arangeGrid _ _ hto g).mp hg
  positivity

theorem rtMapped_mem_grid (lengths : List ℚ) (fr tr : ℚ)
    (hne : lengths ≠ []) (hnn : ∀ x ∈ lengths, 0 ≤ x)
    (hfr : 0 < fr) (hto : 0 < tr) :
    ∀ v ∈ rtMapped lengths fr tr, v ∈ rtGrid lengths fr tr := by
  intro v hv
  obtain ⟨e, -, rfl⟩ := List.mem_map.mp hv
  exact (nearest_spec e _ (rtGrid_ne_nil lengths fr tr hne hnn hfr hto)).1

theorem rtMapped_dvd (lengths : List ℚ) (fr tr : ℚ)
    (hne : lengths ≠ []) (hnn : ∀ x ∈ lengths, 0 ≤ x)
    (hfr : 0 < fr) (hto : 0 < tr) :
    ∀ v ∈ rtMapped lengths fr tr, ∃ k : ℤ, v = k * tr := by
  intro v hv
  have hg := rtMapped_mem_grid lengths fr tr hne hnn hfr hto v hv
  obtain ⟨k, rfl, -⟩ := (mem_arangeGrid _ _ hto v).mp hg
  exact ⟨k, by push_cast; ring⟩

theorem rtOut_length (lengths : List ℚ) (fr tr : ℚ) :
    (rtOut lengths fr tr).length = lengths.length := by
  rw [rtOut, firstDiff_length, rtMapped, List.length_map, cumsum_length]

/-- Claim C1: for a non-empty sequence of non-negative durations, each
divisible by `fromRate` (rates positive), `resample_timings` without a
`total_duration` (i) returns the first-difference of the end-points mapped
onto the grid, (ii) the grid is exactly the multiples of `toRate` below
`lastEnd + 3*fromRate`, (iii) each mapped end-point is a grid point at
minimal distance from its end-point, ties going down: the smaller grid value wins,
(iv) the output has one value per input, the first being the first mapped
end-point and the rest consecutive differences, and (v) every output value
is an integer multiple of `toRate`. -/
theorem C1_convert_no_target (lengths : List ℚ) (fr tr : ℚ)
    (hne : lengths ≠ []) (hnn : ∀ x ∈ lengths, 0 ≤ x)
    (hdiv : ∀ x ∈ lengths, ∃ k : ℤ, x = k * fr)
    (hfr : 0 < fr) (hto : 0 < tr) :
    resample_timings lengths fr tr none = .ok (rtOut lengths fr tr) ∧
    (∀ g, g ∈ rtGrid lengths fr tr ↔
      ∃ k : ℕ, g = (k : ℚ) * tr ∧
        g < (cumsum lengths).getLastD 0 + fr * 3) ∧
    (∀ e ∈ cumsum lengths,
      nearest e (rtGrid lengths fr tr) ∈ rtGrid lengths fr tr ∧
      (∀ g ∈ rtGrid lengths fr tr,
        |e - nearest e (rtGrid lengths fr tr)| ≤ |e - g|) ∧
      (∀ g ∈ rtGrid lengths fr tr,
        |e - g| = |e - nearest e (rtGrid lengths fr tr)| →
          nearest e (rtGrid lengths fr tr) ≤ g)) ∧
    ((rtOut lengths fr tr).length = lengths.length ∧
      ∀ i, i < lengths.length →
        (rtOut lengths fr tr).getD i 0 =
          (rtMapped lengths fr tr).getD i 0 -
            (if i = 0 then 0 else (rtMapped lengths fr tr).getD (i - 1) 0)) ∧
    (∀ v ∈ rtOut lengths fr tr, ∃ k : ℤ, v = k * tr) := by
  have hdiv' : ∀ x ∈ lengths, ratMod x fr = 0 := fun x hx =>
    (ratMod_eq_zero_iff x fr (ne_of_gt hfr)).mpr (hdiv x hx)
  have hgr := rtGrid_ne_nil lengths fr tr hne hnn hfr hto
  have hsorted : (rtGrid lengths fr tr).Pairwise (· < ·) :=
    arangeGrid_sorted _ _ hto
  refine ⟨?_, ?_, ?_, ⟨rtOut_length lengths fr tr, ?_⟩, ?_⟩
  · rw [resample_eq_applyTotal lengths fr tr hne hdiv', applyTotal]
  · intro g
    exact mem_arangeGrid _ _ hto g
  · intro e _
    obtain ⟨h1, h2, h3⟩ := nearest_spec e _ hgr
    exact ⟨h1, h2, h3 hsorted⟩
  · intro i hi
    have hi' : i < (rtMapped lengths fr tr).length := by
      rw [rtMapped, List.length_map, cumsum_length]
      exact hi
    exact firstDiff_getD _ i hi'
  · exact firstDiff_dvd tr _ (rtMapped_dvd lengths fr tr hne hnn hfr hto)

/-- Witness for C1 at `lengths = [5, 10]`, `fromRate = 5`, `toRate = 5`. -/
theorem C1_witness :
    resample_timings [(5 : ℚ), 10] 5 5 none =
      .ok (rtOut [(5 : ℚ), 10] 5 5) ∧
    ∀ v ∈ rtOut [(5 : ℚ), 10] 5 5, ∃ k : ℤ, v = k * 5 := by
  have h := C1_convert_no_target [5, 10] 5 5 (by simp)
    (by intro x hx; rcases List.mem_cons.mp hx with rfl | hx
        · norm_num
        · rcases List.mem_cons.mp hx with rfl | hx
          · norm_num
          · simp at hx)
    (by intro x hx; rcases List.mem_cons.mp hx with rfl | hx
        · exact ⟨1, by norm_num⟩
        · rcases List.mem_cons.mp hx with rfl | hx
          · exact ⟨2, by norm_num⟩
          · simp at hx)
    (by norm_num) (by norm_num)
  exact ⟨h.1, h.2.2.2.2⟩

/-- Claim C9: if any input duration is not an integer multiple of
`fromRate`, `resample_timings` returns the non-fatal skip signal
(`return None` in the source), never an assertion failure or a value. -/
theorem C9_nondivisible_skip (lengths : List ℚ) (fr tr : ℚ) (td : Option ℚ)
    (hfr : 0 < fr) (h : ∃ x ∈ lengths, ¬ ∃ k : ℤ, x = k * fr) :
    resample_timings lengths fr tr td = .skip := by
  obtain ⟨x, hx, hk⟩ := h
  have hcond : ¬ (∀ y ∈ lengths, ratMod y fr = 0) := fun hall =>
    hk ((ratMod_eq_zero_iff x fr (ne_of_gt hfr)).mp (hall x hx))
  rw [resample_timings, if_pos hcond]

/-- Witness for C9 at the spec's own example `d = [7]`, `fromRate = 5`. -/
theorem C9_witness : resample_timings [(7 : ℚ)] 5 50 none = .skip := by
  refine C9_nondivisible_skip [7] 5 50 none (by norm_num) ⟨7, by simp, ?_⟩
  rintro ⟨k, hk⟩
  have hk' : (k : ℚ) = 7 / 5 := by linarith
  have h1 : (1 : ℚ) < (k : ℚ) := by rw [hk']; norm_num
  have h2 : ((k : ℚ) : ℚ) < 2 := by rw [hk']; norm_num
  have h3 : (1 : ℤ) < k := by exact_mod_cast h1
  have h4 : k < (2 : ℤ) := by exact_mod_cast h2
  omega

theorem rtMapped_ne_nil (lengths : List ℚ) (fr tr : ℚ)
    (hne : lengths ≠ []) : rtMapped lengths fr tr ≠ [] := by
  intro h
  have hlen : (rtMapped lengths fr tr).length = lengths.length := by
    rw [rtMapped, List.length_map, cumsum_length]
  rw [h] at hlen
  exact hne (List.length_eq_zero.mp hlen.symm)

theorem rtOut_ne_nil (lengths : List ℚ) (fr tr : ℚ)
    (hne : lengths ≠ []) : rtOut lengths fr tr ≠ [] := by
  intro h
  have hlen := rtOut_length lengths fr tr
  rw [h] at hlen
  exact hne (List.length_eq_zero.mp hlen.symm)

theorem rtOut_sum_nonneg (lengths : List ℚ) (fr tr : ℚ)
    (hne : lengths ≠ []) (hnn : ∀ x ∈ lengths, 0 ≤ x)
    (hfr : 0 < fr) (hto : 0 < tr) : 0 ≤ (rtOut lengths fr tr).sum := by
  rw [rtOut, firstDiff_sum]
  exact rtGrid_nonneg lengths fr tr hto _
    (rtMapped_mem_grid lengths fr tr hne hnn hfr hto _
      (getLastD_mem _ 0 (rtMapped_ne_nil lengths fr tr hne)))

/-- Claim C2 amended: with a *nonzero* `targetTotal` supplied, if the
reconstructed total does not exceed it and the shortfall is an exact
multiple of `toRate` the returned sequence sums to `targetTotal` exactly
and only the last element differs from the `targetTotal`-absent result
(this success clause holds for `targetTotal = 0` as well); if `targetTotal`
is nonzero and the reconstructed total exceeds it, or the shortfall is not
a multiple of `toRate`, the call fails with an assertion error.
(A `targetTotal` of 0 is falsy in python and is treated as absent, see the
counterexample.) -/
theorem C2_convert_with_target (lengths : List ℚ) (fr tr : ℚ) (t : ℚ)
    (hne : lengths ≠ []) (hnn : ∀ x ∈ lengths, 0 ≤ x)
    (hdiv : ∀ x ∈ lengths, ∃ k : ℤ, x = k * fr)
    (hfr : 0 < fr) (hto : 0 < tr) :
    (((rtOut lengths fr tr).sum ≤ t ∧
        (∃ k : ℤ, t - (rtOut lengths fr tr).sum = k * tr)) →
      ∃ out', resample_timings lengths fr tr (some t) = .ok out' ∧
        out'.sum = t ∧
        out'.length = (rtOut lengths fr tr).length ∧
        out'.dropLast = (rtOut lengths fr tr).dropLast) ∧
    (t ≠ 0 →
      (¬ ((rtOut lengths fr tr).sum ≤ t) ∨
        ¬ (∃ k : ℤ, t - (rtOut lengths fr tr).sum = k * tr)) →
      resample_timings lengths fr tr (some t) = .assertFail) := by
  have hdiv' : ∀ x ∈ lengths, ratMod x fr = 0 := fun x hx =>
    (ratMod_eq_zero_iff x fr (ne_of_gt hfr)).mpr (hdiv x hx)
  have heq := resample_eq_applyTotal lengths fr tr hne hdiv' (some t)
  constructor
  · rintro ⟨hsum, hk⟩
    rw [heq, applyTotal]
    by_cases ht0 : t = 0
    · subst ht0
      rw [if_pos rfl]
      refine ⟨rtOut lengths fr tr, rfl, ?_, rfl, rfl⟩
      exact le_antisymm hsum (rtOut_sum_nonneg lengths fr tr hne hnn hfr hto)
    · have hmod : ratMod (t - (rtOut lengths fr tr).sum) tr = 0 :=
        (ratMod_eq_zero_iff _ _ (ne_of_gt hto)).mpr hk
      rw [if_neg ht0, if_neg (not_not_intro hsum), if_neg (not_not_intro hmod)]
      refine ⟨_, rfl, ?_, ?_, List.dropLast_concat⟩
      · rw [List.sum_append, List.sum_cons, List.sum_nil]
        have h2 := sum_dropLast_add_getLastD (rtOut lengths fr tr)
          (rtOut_ne_nil lengths fr tr hne)
        linarith
      · rw [List.length_append, List.length_dropLast]
        have hpos : 0 < (rtOut lengths fr tr).length :=
          List.length_pos.mpr (rtOut_ne_nil lengths fr tr hne)
        simp
        omega
  · intro ht0 hbad
    rw [heq, applyTotal, if_neg ht0]
    rcases hbad with hb | hb
    · rw [if_pos hb]
    · by_cases hs : (rtOut lengths fr tr).sum ≤ t
      · rw [if_neg (not_not_intro hs), if_pos]
        intro hmod
        exact hb ((ratMod_eq_zero_iff _ _ (ne_of_gt hto)).mp hmod)
      · rw [if_pos hs]

/-- Claim C2 as stated is false when `targetTotal = 0` is supplied: the
reconstructed total 50 exceeds the target 0, yet the call returns the
sequence unchanged instead of failing fatally — python's
`if total_duration:` treats the falsy 0 as "no target supplied", skipping
both asserts. -/
theorem C2_counterexample :
    (rtOut [(50 : ℚ)] 5 50).sum = 50 ∧
    ¬ ((rtOut [(50 : ℚ)] 5 50).sum ≤ 0) ∧
    resample_timings [(50 : ℚ)] 5 50 (some 0) =
      .ok (rtOut [(50 : ℚ)] 5 50) := by
  have hcs : cumsum [(50 : ℚ)] = [50] := by simp [cumsum, cumsumFrom]
  have hgc : gridCount ((50 : ℚ) + 5 * 3) 50 = 2 := by
    have h : ⌈((50 : ℚ) + 5 * 3) / 50⌉ = 2 := by norm_num [Int.ceil_eq_iff]
    rw [gridCount, h]
    rfl
  have hgrid : rtGrid [(50 : ℚ)] 5 50 = [0, 50] := by
    rw [rtGrid, hcs, show ([(50 : ℚ)].getLastD 0) = 50 from rfl, arangeGrid,
      hgc, show List.range 2 = [0, 1] from rfl]
    simp [List.map]
  have hnear : nearest 50 [(0 : ℚ), 50] = 50 := by
    have h1 : nearStep 50 0 50 = 50 := by rw [nearStep, if_pos (by norm_num)]
    show List.foldl (nearStep 50) 0 [50] = 50
    simp only [List.foldl_cons, List.foldl_nil, h1]
  have hmapped : rtMapped [(50 : ℚ)] 5 50 = [50] := by
    rw [rtMapped, hcs, hgrid]
    simp [hnear]
  have hout : rtOut [(50 : ℚ)] 5 50 = [50] := by
    rw [rtOut, hmapped]
    simp [firstDiff]
  refine ⟨by rw [hout]; norm_num, by rw [hout]; norm_num, ?_⟩
  have hdiv' : ∀ x ∈ [(50 : ℚ)], ratMod x 5 = 0 := by
    intro x hx
    rcases List.mem_cons.mp hx with rfl | hx
    · exact (ratMod_eq_zero_iff _ _ (by norm_num)).mpr ⟨10, by norm_num⟩
    · simp at hx
  rw [resample_eq_applyTotal [(50 : ℚ)] 5 50 (by simp) hdiv' (some 0),
    applyTotal, if_pos rfl]

/-- Witness for the amended C2 at `lengths = [5]`, rates 5→5,
`targetTotal = 10`: the success clause produces a sequence summing to 10
whose non-last elements match the target-absent result. -/
theorem C2_witness :
    ∃ out', resample_timings [(5 : ℚ)] 5 5 (some 10) = .ok out' ∧
      out'.sum = 10 ∧ out'.length = (rtOut [(5 : ℚ)] 5 5).length ∧
      out'.dropLast = (rtOut [(5 : ℚ)] 5 5).dropLast := by
  have hcs : cumsum [(5 : ℚ)] = [5] := by simp [cumsum, cumsumFrom]
  have hgc : gridCount ((5 : ℚ) + 5 * 3) 5 = 4 := by
    have h : ⌈((5 : ℚ) + 5 * 3) / 5⌉ = 4 := by norm_num [Int.ceil_eq_iff]
    rw [gridCount, h]
    rfl
  have hgrid : rtGrid [(5 : ℚ)] 5 5 = [0, 5, 10, 15] := by
    rw [rtGrid, hcs, show ([(5 : ℚ)].getLastD 0) = 5 from rfl, arangeGrid,
      hgc, show List.range 4 = [0, 1, 2, 3] from rfl]
    simp [List.map]
    norm_num
  have hnear : nearest 5 [(0 : ℚ), 5, 10, 15] = 5 := by
    have h1 : nearStep 5 0 5 = 5 := by rw [nearStep, if_pos (by norm_num)]
    have h2 : nearStep 5 5 10 = 5 := by rw [nearStep, if_neg (by norm_num)]
    have h3 : nearStep 5 5 15 = 5 := by rw [nearStep, if_neg (by norm_num)]
    show List.foldl (nearStep 5) 0 [5, 10, 15] = 5
    simp only [List.foldl_cons, List.foldl_nil, h1, h2, h3]
  have hmapped : rtMapped [(5 : ℚ)] 5 5 = [5] := by
    rw [rtMapped, hcs, hgrid]
    simp [hnear]
  have hout : rtOut [(5 : ℚ)] 5 5 = [5] := by
    rw [rtOut, hmapped]
    simp [firstDiff]
  refine (C2_convert_with_target [5] 5 5 10 (by simp)
    (by intro x hx
        rcases List.mem_cons.mp hx with rfl | hx
        · norm_num
        · simp at hx)
    (by intro x hx
        rcases List.mem_cons.mp hx with rfl | hx
        · exact ⟨1, by norm_num⟩
        · simp at hx)
    (by norm_num) (by norm_num)).1 ⟨?_, ?_⟩
  · rw [hout]
    norm_num
  · exact ⟨1, by rw [hout]; norm_num⟩

/-! ## AttentionGuideBuilder (soft): `get_attention_guide`
(get_durations.py lines 147-153; the identical function in
create_diagonal_guides.py lines 9-15).  The float computation
`1 - np.exp(-(t_pos/ydim - n_pos/xdim)**2 / (2*g*g))` is modelled over ℝ. -/

noncomputable def get_attention_guide (xdim ydim : ℕ) (g : ℝ) :
    List (List ℝ) :=
  (List.range xdim).map (fun n_pos : ℕ =>
    (List.range ydim).map (fun t_pos : ℕ =>
      1 - Real.exp (-((t_pos : ℝ) / (ydim : ℝ) - (n_pos : ℝ) / (xdim : ℝ)) ^ 2
        / (2 * g * g))))

/-- Entry of the real-valued guide matrix at row `n`, column `t`. -/
noncomputable def entryR (A : List (List ℝ)) (n t : ℕ) : ℝ :=
  (A.getD n []).getD t 0

theorem entryR_gag (xdim ydim : ℕ) (g : ℝ) (n t : ℕ)
    (hn : n < xdim) (ht : t < ydim) :
    entryR (get_attention_guide xdim ydim g) n t =
      1 - Real.exp (-((t : ℝ) / (ydim : ℝ) - (n : ℝ) / (xdim : ℝ)) ^ 2
        / (2 * g * g)) := by
  have hrow : (get_attention_guide xdim ydim g).getD n [] =
      (List.range ydim).map (fun t_pos : ℕ =>
        1 - Real.exp (-((t_pos : ℝ) / (ydim : ℝ) - (n : ℝ) / (xdim : ℝ)) ^ 2
          / (2 * g * g))) := by
    rw [get_attention_guide, List.getD_eq_getElem _ _ (by simpa using hn)]
    simp only [List.getElem_map, List.getElem_range]
  rw [entryR, hrow, List.getD_eq_getElem _ _ (by simpa using ht)]
  simp only [List.getElem_map, List.getElem_range]

/-- Claim C7 amended: the soft guide's entry at (row, col) is
`1 - exp(-((col/colCount - row/rowCount)^2) / (2*spread^2))`; its values lie
in `[0, 1)` (not `(0, 1]`), and an entry is 0 exactly on the scaled
diagonal, where `col/colCount = row/rowCount`. -/
theorem C7_soft_guide (xdim ydim : ℕ) (g : ℝ) (hg : g ≠ 0) (n t : ℕ)
    (hn : n < xdim) (ht : t < ydim) :
    entryR (get_attention_guide xdim ydim g) n t =
      1 - Real.exp (-((t : ℝ) / (ydim : ℝ) - (n : ℝ) / (xdim : ℝ)) ^ 2
        / (2 * g * g)) ∧
    0 ≤ entryR (get_attention_guide xdim ydim g) n t ∧
    entryR (get_attention_guide xdim ydim g) n t < 1 ∧
    (entryR (get_attention_guide xdim ydim g) n t = 0 ↔
      (t : ℝ) / (ydim : ℝ) = (n : ℝ) / (xdim : ℝ)) := by
  have he := entryR_gag xdim ydim g n t hn ht
  have hgg : 0 < 2 * g * g := by
    have h1 : 0 < g * g := mul_self_pos.mpr hg
    nlinarith
  have hd2 : 0 ≤ ((t : ℝ) / (ydim : ℝ) - (n : ℝ) / (xdim : ℝ)) ^ 2 :=
    sq_nonneg _
  have harg : -((t : ℝ) / (ydim : ℝ) - (n : ℝ) / (xdim : ℝ)) ^ 2
      / (2 * g * g) ≤ 0 :=
    div_nonpos_of_nonpos_of_nonneg (neg_nonpos.mpr hd2) (le_of_lt hgg)
  refine ⟨he, ?_, ?_, ?_⟩
  · rw [he]
    have := Real.exp_le_one_iff.mpr harg
    linarith
  · rw [he]
    have := Real.exp_pos (-((t : ℝ) / (ydim : ℝ) - (n : ℝ) / (xdim : ℝ)) ^ 2
      / (2 * g * g))
    linarith
  · rw [he]
    constructor
    · intro h0
      have h1 : Real.exp (-((t : ℝ) / (ydim : ℝ) - (n : ℝ) / (xdim : ℝ)) ^ 2
          / (2 * g * g)) = 1 := by linarith
      have h2 : -((t : ℝ) / (ydim : ℝ) - (n : ℝ) / (xdim : ℝ)) ^ 2
          / (2 * g * g) = 0 :=
        Real.exp_eq_exp.mp (h1.trans Real.exp_zero.symm)
      have h3 : ((t : ℝ) / (ydim : ℝ) - (n : ℝ) / (xdim : ℝ)) ^ 2 = 0 := by
        have h4 : -((t : ℝ) / (ydim : ℝ) - (n : ℝ) / (xdim : ℝ)) ^ 2 = 0 :=
          (div_eq_zero_iff.mp h2).resolve_right (ne_of_gt hgg)
        linarith
      have h5 := pow_eq_zero_iff (n := 2) (by norm_num) |>.mp h3
      linarith [sub_eq_zero.mp h5]
    · intro hdiag
      rw [show (t : ℝ) / (ydim : ℝ) - (n : ℝ) / (xdim : ℝ) = 0 from
        sub_eq_zero.mpr hdiag]
      simp [Real.exp_zero]

/-- Claim C7 as stated is false: the values do not lie in `(0, 1]` — at
`fromShapes 1 1` the (0,0) entry is on the scaled diagonal and equals
`1 - exp 0 = 0`, which is not in `(0, 1]`. -/
theorem C7_counterexample :
    entryR (get_attention_guide 1 1 (1 / 5)) 0 0 = 0 ∧
    ¬ (entryR (get_attention_guide 1 1 (1 / 5)) 0 0 ∈ Set.Ioc (0 : ℝ) 1) := by
  have h := entryR_gag 1 1 (1 / 5) 0 0 (by norm_num) (by norm_num)
  have h0 : entryR (get_attention_guide 1 1 (1 / 5)) 0 0 = 0 := by
    rw [h]
    norm_num
  exact ⟨h0, by rw [h0]; simp⟩

/-- Witness for the amended C7 at shape 2×3, spread 1/5, entry (1,2): the
value is in `[0, 1)` and nonzero off the diagonal. -/
theorem C7_witness :
    0 ≤ entryR (get_attention_guide 2 3 (1 / 5)) 1 2 ∧
    entryR (get_attention_guide 2 3 (1 / 5)) 1 2 < 1 := by
  have h := C7_soft_guide 2 3 (1 / 5) (by norm_num) 1 2
    (by norm_num) (by norm_num)
  exact ⟨h.2.1, h.2.2.1⟩

/-! ## TranscriptStore: `write_transcript` / `read_transcript`
(get_durations.py lines 89-123).  Text is modelled as `List Char`; a file
is its list of lines (without terminators: `write` appends `'\n'`,
`readlines` keeps it, and the first `strip` removes it again). -/

/-- The pipe field separator. -/
def pipeC : Char := '|'

/-- Python whitespace, as recognised by `str.strip()` and `re.split('\s+')`. -/
def pyWs (c : Char) : Bool :=
  c == ' ' || c == '\t' || c == '\n' || c == '\r' || c == '\x0B' || c == '\x0C'

/-- The character set of `line.strip('\n\r |')`. -/
def isStripChar (c : Char) : Bool :=
  c == '\n' || c == '\r' || c == ' ' || c == '|'

/-- `s.strip(...)`: drop a leading run and a trailing run of characters
satisfying `p`. -/
def dropEnds (p : Char → Bool) (cs : List Char) : List Char :=
  ((cs.dropWhile p).reverse.dropWhile p).reverse

/-- `sep.split(...)` on a single character: `"".split` gives one empty
field, and every separator occurrence opens a new field. -/
def splitOnChar (sep : Char) : List Char → List (List Char)
  | [] => [[]]
  | c :: cs =>
    if c = sep then [] :: splitOnChar sep cs
    else
      match splitOnChar sep cs with
      | [] => [[c]]
      | t :: ts => (c :: t) :: ts

/-- `re.split('\s+', s)`: split on maximal whitespace runs; an empty field
appears only for a leading or trailing run.  `acc` holds the reversed
current field. -/
def reSplitGo : List Char → List Char → List (List Char)
  | acc, [] => [acc.reverse]
  | acc, c :: cs =>
    if pyWs c then
      if cs = [] then [acc.reverse, []]
      else if pyWs (cs.headD ' ') then reSplitGo acc cs
      else acc.reverse :: reSplitGo [] cs
    else reSplitGo (c :: acc) cs

def reSplitWs (cs : List Char) : List (List Char) := reSplitGo [] cs

/-- `' '.join(tokens)`. -/
def joinSp : List (List Char) → List Char
  | [] => []
  | [t] => t
  | t :: t2 :: ts => t ++ ' ' :: joinSp (t2 :: ts)

/-- Decimal digit printer, the model of python `str(n)` /
`np.array(..., dtype='str')` on a natural number.  The fuel argument
(`n + 1` at the top) only serves structural termination and never runs
out. -/
def natCharsGo : ℕ → ℕ → List Char
  | 0, _ => []
  | fuel + 1, n =>
    if n < 10 then [Char.ofNat (48 + n)]
    else natCharsGo fuel (n / 10) ++ [Char.ofNat (48 + n % 10)]

def natChars (n : ℕ) : List Char := natCharsGo (n + 1) n

/-- A per-utterance record of `texts[base]`: normalised text, phone
tokens, optional per-phone durations. -/
structure TRecord where
  text : List Char
  phones : List (List Char)
  duration : Option (List ℕ)
deriving DecidableEq

/-- What `read_transcript` keeps of a record: phones and normalised text
(`transcript[base] = {'phones': phones, 'text': normtext}`, line 121 —
durations are not parsed back). -/
structure RRecord where
  phones : List (List Char)
  text : List Char
deriving DecidableEq

/-- Lexicographic string comparison, the order of python `sorted()`. -/
def lexLe : List Char → List Char → Bool
  | [], _ => true
  | _ :: _, [] => false
  | x :: xs, y :: ys => if x = y then lexLe xs ys else decide (x < y)

def insertByBase (p : List Char × TRecord) :
    List (List Char × TRecord) → List (List Char × TRecord)
  | [] => [p]
  | q :: qs => if lexLe p.1 q.1 then p :: q :: qs else q :: insertByBase p qs

/-- `sorted(texts.keys())`: a stable sort of the association list by id. -/
def sortByBase : List (List Char × TRecord) → List (List Char × TRecord)
  | [] => []
  | p :: ps => insertByBase p (sortByBase ps)

/-- One line of `write_transcript` (lines 95-101):
`'%s||%s|%s' % (base, text, phones)`, plus `'||%s' % durations` when
`duration=True`; a record without durations is skipped (warning). -/
def writeLine (base : List Char) (r : TRecord) (withDur : Bool) :
    Option (List Char) :=
  let line := base ++ [pipeC, pipeC] ++ r.text ++ [pipeC] ++ joinSp r.phones
  if withDur then
    match r.duration with
    | none => none
    | some ds => some (line ++ [pipeC, pipeC] ++ joinSp (ds.map natChars))
  else some line

/-- `write_transcript` (lines 89-104): one line per record, ids in sorted
order. -/
def write_transcript (texts : List (List Char × TRecord)) (dur : Bool) :
    List (List Char) :=
  (sortByBase texts).filterMap (fun p => writeLine p.1 p.2 dur)

/-- `line.strip().split('|')` (line 110). -/
def readFields (line : List Char) : List (List Char) :=
  splitOnChar pipeC (dropEnds pyWs line)

/-- `read_transcript` (lines 106-123): strip `'\n\r |'`, drop blank lines,
split on pipes, require a homogeneous field count (`assert len(line) ==
len(texts[0])`) and at least 4 fields, and keep
`{'phones': re.split('\s+', fields[3]), 'text': fields[2]}` under
`fields[0]`.  The two failing asserts are the `none` results. -/
def read_transcript (lines : List (List Char)) :
    Option (List (List Char × RRecord)) :=
  let texts1 := lines.map (fun l => dropEnds isStripChar l)
  let texts2 := texts1.filter (fun l => !l.isEmpty)
  let texts3 := texts2.map readFields
  if texts3.all (fun l => l.length == (texts3.headD []).length) then
    if texts3.all (fun l => decide (4 ≤ l.length)) then
      some (texts3.map (fun fs =>
        (fs.getD 0 [], ⟨reSplitWs (fs.getD 3 []), fs.getD 2 []⟩)))
    else none
  else none

/-! ### Well-formedness of records, and the round-trip lemmas -/

/-- A token (id or phone) survives the strip/split pipeline untouched:
non-empty, no pipes, no whitespace. -/
def goodTok (tk : List Char) : Prop :=
  tk ≠ [] ∧ ∀ c ∈ tk, c ≠ pipeC ∧ ¬ pyWs c

/-- A record round-trips (up to the dropped duration) when its id and
phones are tokens, its text has no pipes or line breaks, and it carries a
non-empty duration list. -/
def goodRecord (p : List Char × TRecord) : Prop :=
  goodTok p.1 ∧
  (∀ c ∈ p.2.text, c ≠ pipeC ∧ c ≠ '\n' ∧ c ≠ '\r') ∧
  p.2.phones ≠ [] ∧ (∀ tk ∈ p.2.phones, goodTok tk) ∧
  ∃ ds, p.2.duration = some ds ∧ ds ≠ []

theorem filterMap_eq_map_of {α β : Type} (l : List α) (f : α → Option β)
    (g : α → β) (h : ∀ a ∈ l, f a = some (g a)) :
    l.filterMap f = l.map g := by
  induction l with
  | nil => rfl
  | cons a l ih =>
    rw [List.filterMap_cons, h a (by simp), List.map_cons,
      ih (fun x hx => h x (by simp [hx]))]

theorem insertByBase_perm (p : List Char × TRecord)
    (l : List (List Char × TRecord)) : (insertByBase p l).Perm (p :: l) := by
  induction l with
  | nil => exact List.Perm.refl _
  | cons q qs ih =>
    rw [insertByBase]
    split_ifs
    · exact List.Perm.refl _
    · exact (List.Perm.cons q ih).trans (List.Perm.swap p q qs)

theorem sortByBase_perm (l : List (List Char × TRecord)) :
    (sortByBase l).Perm l := by
  induction l with
  | nil => exact List.Perm.refl _
  | cons p ps ih =>
    exact (insertByBase_perm p (sortByBase ps)).trans (List.Perm.cons p ih)

theorem mem_sortByBase {x : List Char × TRecord}
    {l : List (List Char × TRecord)} :
    x ∈ sortByBase l ↔ x ∈ l := (sortByBase_perm l).mem_iff

theorem splitOnChar_ne_nil (sep : Char) :
    ∀ cs : List Char, splitOnChar sep cs ≠ [] := by
  intro cs
  induction cs with
  | nil => simp [splitOnChar]
  | cons c cs ih =>
    rw [splitOnChar]
    split_ifs
    · simp
    · cases h : splitOnChar sep cs <;> simp

theorem splitOnChar_sep_cons (sep : Char) (ys : List Char) :
    splitOnChar sep (sep :: ys) = [] :: splitOnChar sep ys := by
  rw [splitOnChar, if_pos rfl]

theorem splitOnChar_append (sep : Char) {xs : List Char} (h : sep ∉ xs)
    (ys : List Char) {t : List Char} {ts : List (List Char)}
    (heq : splitOnChar sep ys = t :: ts) :
    splitOnChar sep (xs ++ ys) = (xs ++ t) :: ts := by
  induction xs with
  | nil => simpa using heq
  | cons c xs ih =>
    have hc : c ≠ sep := fun hc => h (hc ▸ List.mem_cons_self c xs)
    rw [List.cons_append, splitOnChar, if_neg hc,
      ih (fun hx => h (List.mem_cons_of_mem c hx))]
    rfl

theorem splitOnChar_no_sep (sep : Char) {xs : List Char} (h : sep ∉ xs) :
    splitOnChar sep xs = [xs] := by
  have h0 : splitOnChar sep ([] : List Char) = [] :: [] := rfl
  have := splitOnChar_append sep h [] h0
  simpa using this

theorem splitOnChar_concat_sep (sep : Char) {xs : List Char} (h : sep ∉ xs)
    (ys : List Char) :
    splitOnChar sep (xs ++ sep :: ys) = xs :: splitOnChar sep ys := by
  have := splitOnChar_append sep h (sep :: ys) (splitOnChar_sep_cons sep ys)
  simpa using this

theorem headD_append_left {α : Type} (xs ys : List α) (d : α)
    (h : xs ≠ []) : (xs ++ ys).headD d = xs.headD d := by
  cases xs with
  | nil => exact absurd rfl h
  | cons c cs => rfl

theorem getLastD_irrel {α : Type} (l : List α) (h : l ≠ []) (d d' : α) :
    l.getLastD d = l.getLastD d' := by
  cases l with
  | nil => exact absurd rfl h
  | cons c cs => rw [List.getLastD_cons, List.getLastD_cons]

theorem getLastD_append_right {α : Type} (xs ys : List α) (d : α)
    (h : ys ≠ []) : (xs ++ ys).getLastD d = ys.getLastD d := by
  induction xs generalizing d with
  | nil => rfl
  | cons c cs ih =>
    rw [List.cons_append, List.getLastD_cons]
    have h1 : cs ++ ys ≠ [] := by
      simp only [ne_eq, List.append_eq_nil]
      intro hc
      exact h hc.2
    rw [ih c, getLastD_irrel ys h c d]

theorem headD_reverse {α : Type} (l : List α) (d : α) :
    l.reverse.headD d = l.getLastD d := by
  rw [List.headD_eq_head?_getD, List.head?_reverse,
    ← List.getLastD_eq_getLast?]

theorem dropEnds_eq_self (p : Char → Bool) (cs : List Char) (hne : cs ≠ [])
    (hh : ¬ p (cs.headD ' ')) (hl : ¬ p (cs.getLastD ' ')) :
    dropEnds p cs = cs := by
  rw [dropEnds]
  have h1 : cs.dropWhile p = cs := by
    cases cs with
    | nil => rfl
    | cons c cs' =>
      rw [List.dropWhile_cons, if_neg (by simpa using hh)]
  rw [h1]
  have h2 : cs.reverse.dropWhile p = cs.reverse := by
    cases hrev : cs.reverse with
    | nil => rfl
    | cons c cs' =>
      have h3 := headD_reverse cs ' '
      rw [hrev] at h3
      have hc : cs.getLastD ' ' = c := by rw [← h3]; rfl
      rw [List.dropWhile_cons, if_neg (by rw [← hc]; exact hl)]
  rw [h2, List.reverse_reverse]

theorem joinSp_single (t : List Char) : joinSp [t] = t := rfl

theorem joinSp_cons₂ (t t2 : List Char) (ts : List (List Char)) :
    joinSp (t :: t2 :: ts) = t ++ ' ' :: joinSp (t2 :: ts) := rfl

theorem joinSp_chars (P : Char → Prop) (hsp : P ' ') :
    ∀ ts : List (List Char), (∀ tk ∈ ts, ∀ c ∈ tk, P c) →
      ∀ c ∈ joinSp ts, P c := by
  intro ts
  induction ts with
  | nil => intro _ c hc; simp [joinSp] at hc
  | cons t ts ih =>
    intro h c hc
    cases ts with
    | nil => exact h t (by simp) c (by simpa [joinSp_single] using hc)
    | cons t2 rest =>
      rw [joinSp_cons₂] at hc
      rcases List.mem_append.mp hc with h1 | h1
      · exact h t (by simp) c h1
      · rcases List.mem_cons.mp h1 with rfl | h1
        · exact hsp
        · exact ih (fun tk htk => h tk (by simp [htk])) c h1

theorem joinSp_ne_nil :
    ∀ ts : List (List Char), ts ≠ [] → (∀ tk ∈ ts, tk ≠ []) →
      joinSp ts ≠ [] := by
  intro ts hne htk
  cases ts with
  | nil => exact absurd rfl hne
  | cons t ts =>
    cases ts with
    | nil => exact htk t (by simp)
    | cons t2 rest =>
      rw [joinSp_cons₂]
      simp

theorem joinSp_headD (t : List Char) (ts : List (List Char)) (d : Char)
    (ht : t ≠ []) : (joinSp (t :: ts)).headD d = t.headD d := by
  cases ts with
  | nil => rfl
  | cons t2 rest =>
    rw [joinSp_cons₂]
    exact headD_append_left _ _ _ ht

theorem joinSp_getLastD_mem (d : Char) :
    ∀ ts : List (List Char), ts ≠ [] → (∀ tk ∈ ts, tk ≠ []) →
      ∃ tk ∈ ts, (joinSp ts).getLastD d ∈ tk := by
  intro ts
  induction ts with
  | nil => intro h; exact absurd rfl h
  | cons t ts ih =>
    intro _ htk
    cases ts with
    | nil =>
      exact ⟨t, by simp, by
        rw [joinSp_single]
        exact getLastD_mem t d (htk t (by simp))⟩
    | cons t2 rest =>
      have hJne : joinSp (t2 :: rest) ≠ [] :=
        joinSp_ne_nil _ (by simp) (fun x hx => htk x (by simp [hx]))
      obtain ⟨tk, htk2, hmem⟩ := ih (by simp)
        (fun x hx => htk x (by simp [hx]))
      refine ⟨tk, by simp [htk2], ?_⟩
      rw [joinSp_cons₂, getLastD_append_right _ _ _ (by simp),
        List.getLastD_cons, getLastD_irrel _ hJne ' ' d]
      exact hmem

/-- The decimal digit characters produced by `natChars`. -/
def digitChars : List Char := ['0', '1', '2', '3', '4', '5', '6', '7',
  '8', '9']

theorem digitChar_mem (m : ℕ) (hm : m < 10) :
    Char.ofNat (48 + m) ∈ digitChars := by
  interval_cases m <;> decide

theorem natCharsGo_digits :
    ∀ fuel n : ℕ, ∀ c ∈ natCharsGo fuel n, c ∈ digitChars := by
  intro fuel
  induction fuel with
  | zero => intro n c hc; simp [natCharsGo] at hc
  | succ fuel ih =>
    intro n c hc
    rw [natCharsGo] at hc
    split_ifs at hc with h
    · rw [List.mem_singleton] at hc
      subst hc
      exact digitChar_mem n h
    · rcases List.mem_append.mp hc with h1 | h1
      · exact ih _ c h1
      · rw [List.mem_singleton] at h1
        subst h1
        exact digitChar_mem _ (Nat.mod_lt _ (by norm_num))

theorem natChars_digits (n : ℕ) : ∀ c ∈ natChars n, c ∈ digitChars :=
  natCharsGo_digits (n + 1) n

theorem natChars_ne_nil (n : ℕ) : natChars n ≠ [] := by
  rw [natChars, natCharsGo]
  split_ifs <;> simp

theorem digit_not_pyWs {c : Char} (h : c ∈ digitChars) : ¬ pyWs c := by
  fin_cases h <;> decide

theorem digit_ne_pipe {c : Char} (h : c ∈ digitChars) : c ≠ pipeC := by
  fin_cases h <;> decide

theorem digit_not_strip {c : Char} (h : c ∈ digitChars) :
    ¬ isStripChar c := by
  fin_cases h <;> decide

theorem not_strip_of_tok {c : Char} (h1 : c ≠ pipeC) (h2 : ¬ pyWs c) :
    ¬ isStripChar c := by
  intro hc
  simp only [isStripChar, Bool.or_eq_true, beq_iff_eq] at hc
  simp only [pyWs, Bool.or_eq_true, beq_iff_eq] at h2
  simp only [pipeC] at h1
  tauto

theorem reSplitGo_append_nonws {xs : List Char}
    (hxs : ∀ c ∈ xs, ¬ pyWs c) :
    ∀ acc ys : List Char,
      reSplitGo acc (xs ++ ys) = reSplitGo (xs.reverse ++ acc) ys := by
  induction xs with
  | nil => intro acc ys; rfl
  | cons c xs ih =>
    intro acc ys
    have hc : ¬ pyWs c := hxs c (by simp)
    rw [List.cons_append, reSplitGo, if_neg hc,
      ih (fun x hx => hxs x (by simp [hx])) (c :: acc) ys]
    congr 1
    simp

theorem reSplitGo_ws_cons (acc : List Char) (c2 : Char) (cs2 : List Char)
    (hc2 : ¬ pyWs c2) :
    reSplitGo acc (' ' :: c2 :: cs2) =
      acc.reverse :: reSplitGo [] (c2 :: cs2) := by
  rw [reSplitGo, if_pos (by decide), if_neg (by simp),
    if_neg (by simpa using hc2)]

theorem reSplitWs_joinSp :
    ∀ ts : List (List Char), ts ≠ [] → (∀ tk ∈ ts, goodTok tk) →
      reSplitWs (joinSp ts) = ts := by
  intro ts
  induction ts with
  | nil => intro h; exact absurd rfl h
  | cons t ts ih =>
    intro _ htk
    have ht := htk t (by simp)
    have htnws : ∀ c ∈ t, ¬ pyWs c := fun c hc => (ht.2 c hc).2
    cases ts with
    | nil =>
      rw [joinSp_single, reSplitWs,
        show t = t ++ [] from (List.append_nil t).symm,
        reSplitGo_append_nonws htnws [] []]
      simp [reSplitGo]
    | cons t2 rest =>
      have ht2 := htk t2 (by simp)
      have hJne : joinSp (t2 :: rest) ≠ [] :=
        joinSp_ne_nil _ (by simp) (fun x hx => (htk x (by simp [hx])).1)
      obtain ⟨c2, cs2, hJ2⟩ : ∃ c2 cs2, joinSp (t2 :: rest) = c2 :: cs2 := by
        cases hJ3 : joinSp (t2 :: rest) with
        | nil => exact absurd hJ3 hJne
        | cons a b => exact ⟨a, b, rfl⟩
      have hc2 : ¬ pyWs c2 := by
        have hh := joinSp_headD t2 rest ' ' ht2.1
        rw [hJ2] at hh
        have hc2eq : c2 = t2.headD ' ' := by
          rw [← hh]
          rfl
        cases ht2' : t2 with
        | nil => exact absurd ht2' ht2.1
        | cons d ds =>
          rw [hc2eq, ht2']
          exact (ht2.2 d (by rw [ht2']; simp)).2
      rw [joinSp_cons₂, reSplitWs, reSplitGo_append_nonws htnws [] _,
        hJ2, reSplitGo_ws_cons _ _ _ hc2, ← hJ2]
      have hrec : reSplitGo [] (joinSp (t2 :: rest)) = t2 :: rest :=
        ih (by simp) (fun x hx => htk x (by simp [hx]))
      rw [hrec]
      simp

instance goodTokDecidable (tk : List Char) : Decidable (goodTok tk) := by
  unfold goodTok
  infer_instance

/-- The line `write_transcript` emits for a record carrying durations. -/
def lineOf (p : List Char × TRecord) : List Char :=
  p.1 ++ [pipeC, pipeC] ++ p.2.text ++ [pipeC] ++ joinSp p.2.phones ++
    [pipeC, pipeC] ++ joinSp ((p.2.duration.getD []).map natChars)

theorem writeLine_eq_lineOf (p : List Char × TRecord)
    (h : ∃ ds, p.2.duration = some ds ∧ ds ≠ []) :
    writeLine p.1 p.2 true = some (lineOf p) := by
  obtain ⟨ds, hds, -⟩ := h
  simp only [writeLine, lineOf, hds, Option.getD_some, if_pos rfl, if_true]

theorem headD_mem {α : Type} (l : List α) (d : α) (h : l ≠ []) :
    l.headD d ∈ l := by
  cases l with
  | nil => exact absurd rfl h
  | cons c cs => simp

theorem splitOnChar_line (b tx phJ duJ : List Char)
    (hb : pipeC ∉ b) (htx : pipeC ∉ tx) (hph : pipeC ∉ phJ)
    (hdu : pipeC ∉ duJ) :
    splitOnChar pipeC (b ++ [pipeC, pipeC] ++ tx ++ [pipeC] ++ phJ ++
      [pipeC, pipeC] ++ duJ) = [b, [], tx, phJ, [], duJ] := by
  have e1 : b ++ [pipeC, pipeC] ++ tx ++ [pipeC] ++ phJ ++ [pipeC, pipeC]
      ++ duJ =
      b ++ pipeC ::
        (pipeC :: (tx ++ pipeC :: (phJ ++ pipeC :: (pipeC :: duJ)))) := by
    simp
  rw [e1, splitOnChar_concat_sep _ hb, splitOnChar_sep_cons,
    splitOnChar_concat_sep _ htx, splitOnChar_concat_sep _ hph,
    splitOnChar_sep_cons, splitOnChar_no_sep _ hdu]

theorem lineOf_facts (p : List Char × TRecord) (hg : goodRecord p) :
    dropEnds isStripChar (lineOf p) = lineOf p ∧
    lineOf p ≠ [] ∧
    readFields (lineOf p) =
      [p.1, [], p.2.text, joinSp p.2.phones, [],
        joinSp ((p.2.duration.getD []).map natChars)] := by
  obtain ⟨⟨hbne, hbtok⟩, htext, hphne, hphtok, ds, hds, hdsne⟩ := hg
  set duToks := (p.2.duration.getD []).map natChars with hduToks
  have hduTne : duToks ≠ [] := by
    rw [hduToks, hds]
    simp only [Option.getD_some, ne_eq, List.map_eq_nil_iff]
    exact hdsne
  have hduTtok : ∀ tk ∈ duToks, tk ≠ [] ∧ ∀ c ∈ tk, c ∈ digitChars := by
    intro tk htk
    rw [hduToks, hds] at htk
    obtain ⟨d, -, rfl⟩ := List.mem_map.mp htk
    exact ⟨natChars_ne_nil d, natChars_digits d⟩
  have hduJne : joinSp duToks ≠ [] :=
    joinSp_ne_nil _ hduTne (fun tk htk => (hduTtok tk htk).1)
  have hphJpipe : pipeC ∉ joinSp p.2.phones := by
    intro hc
    exact (joinSp_chars (fun c => c ≠ pipeC) (by decide) _
      (fun tk htk c hcc => ((hphtok tk htk).2 c hcc).1) pipeC hc) rfl
  have hduJpipe : pipeC ∉ joinSp duToks := by
    intro hc
    exact (joinSp_chars (fun c => c ≠ pipeC) (by decide) _
      (fun tk htk c hcc => digit_ne_pipe ((hduTtok tk htk).2 c hcc))
      pipeC hc) rfl
  have hbpipe : pipeC ∉ p.1 := fun hc => (hbtok pipeC hc).1 rfl
  have htxpipe : pipeC ∉ p.2.text := fun hc => (htext pipeC hc).1 rfl
  -- the head of the line is the head of the id
  have hline_ne : lineOf p ≠ [] := by
    rw [lineOf]
    simp [hbne]
  have hheadeq : (lineOf p).headD ' ' = p.1.headD ' ' := by
    rw [lineOf, headD_append_left _ _ _ (by simp [hbne]),
      headD_append_left _ _ _ (by simp [hbne]),
      headD_append_left _ _ _ (by simp [hbne]),
      headD_append_left _ _ _ (by simp [hbne]),
      headD_append_left _ _ _ (by simp [hbne]),
      headD_append_left _ _ _ hbne]
  have hheadtok : (lineOf p).headD ' ' ≠ pipeC ∧
      ¬ pyWs ((lineOf p).headD ' ') := by
    rw [hheadeq]
    exact hbtok _ (headD_mem _ _ hbne)
  -- the last character of the line is a digit of the duration field
  have hlasteq : (lineOf p).getLastD ' ' = (joinSp duToks).getLastD ' ' := by
    rw [lineOf, getLastD_append_right _ _ _ hduJne]
  have hlastdigit : (lineOf p).getLastD ' ' ∈ digitChars := by
    rw [hlasteq]
    obtain ⟨tk, htk, hmem⟩ := joinSp_getLastD_mem ' ' duToks hduTne
      (fun tk htk => (hduTtok tk htk).1)
    exact (hduTtok tk htk).2 _ hmem
  have hstrip1 : dropEnds isStripChar (lineOf p) = lineOf p :=
    dropEnds_eq_self _ _ hline_ne
      (not_strip_of_tok hheadtok.1 hheadtok.2)
      (digit_not_strip hlastdigit)
  have hstrip2 : dropEnds pyWs (lineOf p) = lineOf p :=
    dropEnds_eq_self _ _ hline_ne hheadtok.2 (digit_not_pyWs hlastdigit)
  refine ⟨hstrip1, hline_ne, ?_⟩
  rw [readFields, hstrip2, lineOf]
  exact splitOnChar_line _ _ _ _ hbpipe htxpipe hphJpipe hduJpipe

/-- The parsed form `read_transcript` keeps of a well-formed record. -/
def parsedOf (p : List Char × TRecord) : List Char × RRecord :=
  (p.1, ⟨p.2.phones, p.2.text⟩)

theorem read_write_transcript (m : List (List Char × TRecord))
    (hwf : ∀ p ∈ m, goodRecord p) :
    read_transcript (write_transcript m true) =
      some ((sortByBase m).map parsedOf) := by
  have hwfs : ∀ p ∈ sortByBase m, goodRecord p := fun p hp =>
    hwf p (mem_sortByBase.mp hp)
  have hwrite : write_transcript m true = (sortByBase m).map lineOf := by
    rw [write_transcript]
    exact filterMap_eq_map_of _ _ _ (fun p hp =>
      writeLine_eq_lineOf p (hwfs p hp).2.2.2.2)
  rw [hwrite, read_transcript]
  have h1 : ((sortByBase m).map lineOf).map
      (fun l => dropEnds isStripChar l) = (sortByBase m).map lineOf := by
    rw [List.map_map]
    exact List.map_congr_left (fun p hp => (lineOf_facts p (hwfs p hp)).1)
  rw [h1]
  have h2 : ((sortByBase m).map lineOf).filter (fun l => !l.isEmpty) =
      (sortByBase m).map lineOf := by
    refine List.filter_eq_self.mpr (fun a ha => ?_)
    obtain ⟨p, hp, rfl⟩ := List.mem_map.mp ha
    simpa [List.isEmpty_iff] using (lineOf_facts p (hwfs p hp)).2.1
  rw [h2]
  have h3 : ((sortByBase m).map lineOf).map readFields =
      (sortByBase m).map (fun p =>
        [p.1, [], p.2.text, joinSp p.2.phones, [],
          joinSp ((p.2.duration.getD []).map natChars)]) := by
    rw [List.map_map]
    exact List.map_congr_left (fun p hp => (lineOf_facts p (hwfs p hp)).2.2)
  rw [h3]
  set fieldsList := (sortByBase m).map (fun p =>
    [p.1, [], p.2.text, joinSp p.2.phones, [],
      joinSp ((p.2.duration.getD []).map natChars)]) with hfieldsList
  have hlen6 : ∀ l ∈ fieldsList, l.length = 6 := by
    intro l hl
    obtain ⟨p, -, rfl⟩ := List.mem_map.mp hl
    rfl
  have hall1 : fieldsList.all
      (fun l => l.length == (fieldsList.headD []).length) = true := by
    rw [List.all_eq_true]
    intro l hl
    cases h4 : fieldsList with
    | nil => rw [h4] at hl; simp at hl
    | cons a bs =>
      have ha : a ∈ fieldsList := by rw [h4]; simp
      rw [List.headD_cons, hlen6 l hl, hlen6 a ha]
      rfl
  have hall2 : fieldsList.all (fun l => decide (4 ≤ l.length)) = true := by
    rw [List.all_eq_true]
    intro l hl
    rw [hlen6 l hl]
    decide
  rw [if_pos hall1, if_pos hall2]
  congr 1
  rw [hfieldsList, List.map_map]
  refine List.map_congr_left (fun p hp => ?_)
  have hg := hwfs p hp
  simp only [Function.comp_apply, List.getD_cons_zero, List.getD_cons_succ]
  rw [parsedOf]
  have hph : reSplitWs (joinSp p.2.phones) = p.2.phones :=
    reSplitWs_joinSp _ hg.2.2.1 hg.2.2.2.1
  simp [hph]

/-- Claim C8 amended: reading back the text written with
`includeDurations=true` reconstructs, for every well-formed record, the
phone sequence and the normalised text verbatim; durations, however, are
*not* reconstructed — `read_transcript` parses only the first four pipe
fields and its records carry no duration at all. -/
theorem C8_roundtrip_phones_text (m : List (List Char × TRecord))
    (hwf : ∀ p ∈ m, goodRecord p) :
    read_transcript (write_transcript m true) =
      some ((sortByBase m).map parsedOf) ∧
    ∀ p ∈ m, (p.1, RRecord.mk p.2.phones p.2.text) ∈
      (sortByBase m).map parsedOf := by
  refine ⟨read_write_transcript m hwf, fun p hp => ?_⟩
  exact List.mem_map.mpr ⟨p, mem_sortByBase.mpr hp, rfl⟩

/-- Witness for the amended C8: a concrete two-record store (with a
space inside one normalised text) written with durations and read back
reproduces ids, phones and texts. -/
theorem C8_witness :
    read_transcript (write_transcript
      [(['b'], ⟨['t'], [['p']], some [12]⟩),
       (['a'], ⟨['u', ' ', 'v'], [['p'], ['q']], some [3, 4]⟩)] true) =
      some [(['a'], ⟨[['p'], ['q']], ['u', ' ', 'v']⟩),
            (['b'], ⟨[['p']], ['t']⟩)] := by
  have h := (C8_roundtrip_phones_text
    [(['b'], ⟨['t'], [['p']], some [12]⟩),
     (['a'], ⟨['u', ' ', 'v'], [['p'], ['q']], some [3, 4]⟩)]
    (by
      intro p hp
      rcases List.mem_cons.mp hp with rfl | hp
      · exact ⟨⟨by simp, by decide⟩, by decide, by simp, by decide,
          [12], rfl, by simp⟩
      · rcases List.mem_cons.mp hp with rfl | hp
        · exact ⟨⟨by simp, by decide⟩, by decide, by simp, by decide,
            [3, 4], rfl, by simp⟩
        · simp at hp)).1
  rw [h]
  decide

/-- Claim C8 as stated is false: durations are not reconstructed by
`read_transcript` — two stores that differ only in their duration
sequences read back identically, so no reader output determines the
written durations. -/
theorem C8_counterexample :
    read_transcript (write_transcript
      [(['a'], ⟨['t'], [['p']], some [1]⟩)] true) =
    read_transcript (write_transcript
      [(['a'], ⟨['t'], [['p']], some [2]⟩)] true) ∧
    (TRecord.mk ['t'] [['p']] (some [1])) ≠
      (TRecord.mk ['t'] [['p']] (some [2])) := by
  constructor
  · decide
  · decide

end Taco
